import Mathlib

/-!
# Random forest: tree partitioning, split finding and vote decoding

A shallow embedding of `apps/rand_forest/src/rand_forest_engine.cpp` and
`apps/rand_forest/src/split_finder.cpp`.

Conventions of the embedding:

* C++ `int` values are `Int`; the flag values stay far below `2^31`, so no
  wrap-around is modelled.
* Binary32 arithmetic is modelled by `float_round`, round to nearest with ties
  to even on the rationals (overflow to infinity is not modelled). The two
  quotients `std::floor(static_cast<float>(a) / b)` of `Start` are computed
  with it.
* The split finder is modelled twice. In exact arithmetic its `float` values
  are rationals `ℚ` and the logarithm is a parameter; a quotient whose divisor
  is zero is kept apart as `none` (`float_div`). The definitions ending in
  `_float` are the same code with every operation rounded to binary32; there
  `ComputeEntropy`, which is not among the sources, is a parameter.
-/

namespace RandForest

/-! ## Binary32 rounding -/

/-- The integer nearest to `m`, the even one of the two when `m` lies halfway. -/
def round_half_even (m : ℚ) : Int :=
  if m - ⌊m⌋ < 1 / 2 then ⌊m⌋
  else if 1 / 2 < m - ⌊m⌋ then ⌊m⌋ + 1
  else if ⌊m⌋ % 2 = 0 then ⌊m⌋ else ⌊m⌋ + 1

/-- The unit in the last place of the binary32 numbers around `x`: `2^(e-23)` for
`2^e ≤ |x| < 2^(e+1)`, and `2^(-149)` below the normal range. -/
def float_ulp (x : ℚ) : ℚ := 2 ^ (max (Int.log 2 |x|) (-126) - 23)

/-- The binary32 number nearest to `x` (round to nearest, ties to even), which is
the result of `static_cast<float>` and of every `float` operation on the exact
result `x`. Values of `2^128` and more, which become infinite, are not modelled. -/
def float_round (x : ℚ) : ℚ :=
  if x = 0 then 0
  else if 0 < x then round_half_even (x / float_ulp x) * float_ulp x
  else -(round_half_even (-x / float_ulp x) * float_ulp x)

/-- The exact value of a `float` quotient, before rounding; only the finite
results are kept: a division by zero gives an infinity or NaN, `none`. -/
def float_div (x y : ℚ) : Option ℚ := if y = 0 then none else some (x / y)

/-! ## Tree partitioning in `RandForestEngine::Start` (lines 155-179) -/

/-- The flags read by the partitioning code of `RandForestEngine::Start`. -/
structure Flags where
  num_trees : Int
  num_clients : Int
  num_app_threads : Int
  client_id : Int
deriving Repr, DecidableEq

/-- The first value of `num_trees_per_thread` (line 156), before the remainder
is handed out: `FLAGS_num_trees` is cast to `float`, the `int` product is
converted to `float` for the division, the quotient is rounded, and `std::floor`
of it is stored in an `int`. -/
def Start_base (f : Flags) : Int :=
  ⌊float_round (float_round (f.num_trees : ℚ) /
    float_round ((f.num_clients * f.num_app_threads : Int) : ℚ))⌋

/-- The first value of `num_left_trees` (line 158). -/
def Start_num_left_trees0 (f : Flags) : Int :=
  f.num_trees - f.num_clients * f.num_app_threads * Start_base f

/-- The value of `num_left_clients` (line 160), computed like line 156 through
`float`. -/
def Start_num_left_clients (f : Flags) : Int :=
  ⌊float_round (float_round (Start_num_left_trees0 f : ℚ) /
    float_round (f.num_app_threads : ℚ))⌋

/-- The final value of `num_left_trees` (line 162). -/
def Start_num_left_trees (f : Flags) : Int :=
  Start_num_left_trees0 f - Start_num_left_clients f * f.num_app_threads

/-- The pair `(num_trees_per_thread, tree_idx_start)` that
`RandForestEngine::Start` computes for thread `thread_id` (lines 155-179). -/
def Start_partition (f : Flags) (thread_id : Int) : Int × Int :=
  let num_trees_per_thread := Start_base f
  let num_left_clients := Start_num_left_clients f
  let num_left_trees := Start_num_left_trees f
  if f.client_id < num_left_clients then
    let num_trees_per_thread := num_trees_per_thread + 1
    (num_trees_per_thread,
      f.num_clients * f.num_app_threads * num_trees_per_thread
        + thread_id * num_trees_per_thread)
  else if f.client_id = num_left_clients ∧ thread_id < num_left_trees then
    let num_trees_per_thread := num_trees_per_thread + 1
    (num_trees_per_thread,
      f.num_clients * f.num_app_threads * num_trees_per_thread
        + thread_id * num_trees_per_thread)
  else
    (num_trees_per_thread,
      num_left_clients * f.num_app_threads * (num_trees_per_thread + 1)
        + num_left_trees * (num_trees_per_thread + 1)
        + (f.client_id * f.num_app_threads + thread_id
            - num_left_clients * f.num_app_threads + num_left_trees)
          * num_trees_per_thread)

/-- The tree count `num_trees_per_thread` of worker `(client_id, thread_id)`. -/
def num_trees_per_thread (num_trees num_clients num_app_threads client_id thread_id : Int) :
    Int :=
  (Start_partition ⟨num_trees, num_clients, num_app_threads, client_id⟩ thread_id).1

/-- The start index `tree_idx_start` of worker `(client_id, thread_id)`. -/
def tree_idx_start (num_trees num_clients num_app_threads client_id thread_id : Int) :
    Int :=
  (Start_partition ⟨num_trees, num_clients, num_app_threads, client_id⟩ thread_id).2

/-- Whether tree index `k` lies in the range
`[tree_idx_start, tree_idx_start + num_trees_per_thread)` of worker
`(client_id, thread_id)`. -/
def owns (num_trees num_clients num_app_threads client_id thread_id k : Int) : Prop :=
  tree_idx_start num_trees num_clients num_app_threads client_id thread_id ≤ k ∧
    k < tree_idx_start num_trees num_clients num_app_threads client_id thread_id
        + num_trees_per_thread num_trees num_clients num_app_threads client_id thread_id

instance (num_trees num_clients num_app_threads client_id thread_id k : Int) :
    Decidable (owns num_trees num_clients num_app_threads client_id thread_id k) := by
  unfold owns; infer_instance

/-- The sum of the tree counts of the logical workers with index
`client_id * num_app_threads + thread_id` below `w`; worker index `i` is the
pair `(i / num_app_threads, i % num_app_threads)`. -/
def trees_before (num_trees num_clients num_app_threads : Int) (w : Nat) : Int :=
  ((List.range w).map (fun i : Nat =>
    num_trees_per_thread num_trees num_clients num_app_threads
      ((i : Int) / num_app_threads) ((i : Int) % num_app_threads))).sum

/-! ## Split finder (`split_finder.cpp`) -/

/-- One `FeatureEntry` of the split finder. The label is used as a vector index. -/
structure FeatureEntry where
  feature_val : ℚ
  label : Nat
  weight : ℚ
deriving DecidableEq

/-- The members of `SplitFinder`. -/
structure SplitFinder where
  num_labels_ : Nat
  pre_split_entropy_ : ℚ
  entries_ : List FeatureEntry

/-- The value of `std::numeric_limits<float>::min()`: the smallest positive
normalized single-precision number, `2^(-126)`. -/
def FLT_MIN : ℚ := 1 / 2 ^ 126

/-- Modelled from the spec: `Normalize` of `utils.hpp` is not among the sources.
It divides every component by the sum of the components ("normalized to sum to
1"); a vector whose sum is zero is left as it is ("explicitly guarded"). -/
def Normalize (v : List ℚ) : List ℚ :=
  if v.sum = 0 then v else v.map (fun x => x / v.sum)

/-- Modelled from the spec: `ComputeEntropy` of `utils.hpp` is not among the
sources. `H(p) = -Σ p_i·log(p_i)` over the components with `p_i > 0`. The
logarithm is not rational valued, so it is a parameter of the model. -/
def ComputeEntropy (log : ℚ → ℚ) (dist : List ℚ) : ℚ :=
  -((dist.filter (fun p => 0 < p)).map (fun p => p * log p)).sum

/-- The update `v[i] += w` of a `std::vector<float>`. -/
def vec_add (v : List ℚ) (i : Nat) (w : ℚ) : List ℚ :=
  v.set i (v.getD i 0 + w)

/-- The comparison lambda of `SplitFinder::SortEntries`. -/
def SortEntries_less (i j : FeatureEntry) : Prop :=
  i.feature_val < j.feature_val ∨ (i.feature_val = j.feature_val ∧ i.label < j.label)

instance : DecidableRel SortEntries_less := by
  intro i j; unfold SortEntries_less; infer_instance

/-- The member `SplitFinder::SortEntries`: entries in ascending order of
`(feature_val, label)`. `std::sort` leaves the order of entries with equal keys
open; the model keeps their insertion order. -/
def SortEntries (entries : List FeatureEntry) : List FeatureEntry :=
  entries.insertionSort (fun i j => ¬ SortEntries_less j i)

/-- The label histogram of `FindSplitValue` (lines 50-53): one count per entry,
weights are not used. -/
def label_distribution (num_labels : Nat) (entries : List FeatureEntry) : List ℚ :=
  entries.foldl (fun d e => vec_add d e.label 1) (List.replicate num_labels 0)

/-- The distinct feature values of `FindSplitValue` (lines 60-69), for sorted
entries `e0 :: rest`. -/
def feature_value_dist (e0 : FeatureEntry) (rest : List FeatureEntry) : List ℚ :=
  let min_value := e0.feature_val
  let max_value := ((e0 :: rest).getLast (List.cons_ne_nil e0 rest)).feature_val
  if max_value > min_value then
    rest.foldl (fun d e => if e.feature_val > d.getLastD min_value then d ++ [e.feature_val] else d)
      [min_value]
  else [min_value]

/-- The running distributions passed by reference to `ComputeGainRatio`. -/
structure ScanState where
  left_dist : List ℚ
  right_dist : List ℚ
  left_dist_weight : ℚ
  right_dist_weight : ℚ
  idx : Nat
deriving DecidableEq

/-- The cursor loop of `ComputeGainRatio` (lines 126-136), run over the entries
from position `idx` on. -/
def ComputeGainRatio_scan (split_val : ℚ) : List FeatureEntry → ScanState → ScanState
  | [], st => st
  | fe :: rest, st =>
    if fe.feature_val ≤ split_val then
      ComputeGainRatio_scan split_val rest
        { left_dist := vec_add st.left_dist fe.label fe.weight
          right_dist := vec_add st.right_dist fe.label (-fe.weight)
          left_dist_weight := st.left_dist_weight + fe.weight
          right_dist_weight := st.right_dist_weight - fe.weight
          idx := st.idx + 1 }
    else st

/-- The split information of `ComputeGainRatio` (lines 160-171) for the weights
after the cursor loop. -/
def splitinfo (log : ℚ → ℚ) (left_dist_weight right_dist_weight : ℚ) : ℚ :=
  ComputeEntropy log (Normalize
    [left_dist_weight / (left_dist_weight + right_dist_weight),
     right_dist_weight / (left_dist_weight + right_dist_weight)])

/-- The information gain of `ComputeGainRatio` (lines 148-169) for the state
reached by the cursor loop, in exact arithmetic (`gain_ratio_float` has the
roundings). With total weight zero the two quotients of lines 161-164 are NaN
in the code; the entropy of the spec skips components that are not positive, so
the split information is 0 there as it is in this model. -/
def info_gain_of (log : ℚ → ℚ) (pre_split_entropy : ℚ) (st : ScanState) : ℚ :=
  let left_dist_copy := Normalize st.left_dist
  let right_dist_copy := Normalize st.right_dist
  let left_entropy := ComputeEntropy log left_dist_copy
  let right_entropy := ComputeEntropy log right_dist_copy
  let split_dist0 := st.left_dist_weight / (st.left_dist_weight + st.right_dist_weight)
  let split_dist1 := st.right_dist_weight / (st.left_dist_weight + st.right_dist_weight)
  let cond_entropy := split_dist0 * left_entropy + split_dist1 * right_entropy
  pre_split_entropy - cond_entropy

/-- The value of `gain_ratio` after line 172, `info_gain / splitinfo`: `none`
when the division is a division by zero. -/
def gain_ratio_quotient (log : ℚ → ℚ) (pre_split_entropy : ℚ) (st : ScanState) : Option ℚ :=
  float_div (info_gain_of log pre_split_entropy st)
    (splitinfo log st.left_dist_weight st.right_dist_weight)

/-- The value of `gain_ratio` after the guard of lines 173-175. -/
def gain_ratio_guarded (log : ℚ → ℚ) (pre_split_entropy : ℚ) (st : ScanState) : Option ℚ :=
  if splitinfo log st.left_dist_weight st.right_dist_weight = 0 then some 0
  else gain_ratio_quotient log pre_split_entropy st

/-- The gain ratio that `ComputeGainRatio` returns (line 176) for the state
reached by the cursor loop: the guarded value, which is a number in every case
because the quotient is only kept when its divisor is not zero. -/
def gain_ratio_of (log : ℚ → ℚ) (pre_split_entropy : ℚ) (st : ScanState) : ℚ :=
  (gain_ratio_guarded log pre_split_entropy st).get (by
    unfold gain_ratio_guarded gain_ratio_quotient float_div
    split_ifs <;> rfl)

/-- The member `SplitFinder::ComputeGainRatio`: the returned gain ratio and the
updated reference arguments. -/
def ComputeGainRatio (log : ℚ → ℚ) (sf : SplitFinder) (st : ScanState) (split_val : ℚ) :
    ℚ × ScanState :=
  let st1 := ComputeGainRatio_scan split_val (sf.entries_.drop st.idx) st
  (gain_ratio_of log sf.pre_split_entropy_ st1, st1)

/-- The locals of the candidate loop of `FindSplitValue`. -/
structure LoopState where
  best_gain_ratio : ℚ
  best_split_val : ℚ
  scan : ScanState
  evaluated : List (ℚ × ℚ)

/-- The "all to right first" initialisation (lines 76-85). -/
def FindSplitValue_init (num_labels : Nat) (entries : List FeatureEntry) : ScanState :=
  entries.foldl
    (fun st e => { st with
      right_dist := vec_add st.right_dist e.label e.weight
      right_dist_weight := st.right_dist_weight + e.weight })
    { left_dist := List.replicate num_labels 0
      right_dist := List.replicate num_labels 0
      left_dist_weight := 0
      right_dist_weight := 0
      idx := 0 }

/-- One iteration of the candidate loop (lines 88-98); `draws i` is the value
that `dist(mt)` returns in iteration `i`. The field `evaluated` records the
pairs `(rand_split, gain_ratio)` in the order they are computed. -/
def FindSplitValue_step (log : ℚ → ℚ) (sf : SplitFinder) (draws : Nat → ℚ)
    (s : LoopState) (i : Nat) : LoopState :=
  let rand_split := draws i
  let r := ComputeGainRatio log sf s.scan rand_split
  let gain_ratio := r.1
  if gain_ratio > s.best_gain_ratio then
    { best_gain_ratio := gain_ratio, best_split_val := rand_split, scan := r.2
      evaluated := s.evaluated ++ [(rand_split, gain_ratio)] }
  else
    { s with scan := r.2, evaluated := s.evaluated ++ [(rand_split, gain_ratio)] }

/-- The run of `SplitFinder::FindSplitValue` up to the end of the candidate
loop. An empty entry list has no first entry to read: `none`. -/
def FindSplitValue_run (log : ℚ → ℚ) (draws : Nat → ℚ) (sf : SplitFinder) :
    Option LoopState :=
  match SortEntries sf.entries_ with
  | [] => none
  | e0 :: rest =>
    let entries := e0 :: rest
    let pre := ComputeEntropy log (Normalize (label_distribution sf.num_labels_ entries))
    let sf1 : SplitFinder :=
      { num_labels_ := sf.num_labels_, pre_split_entropy_ := pre, entries_ := entries }
    let dist := feature_value_dist e0 rest
    some ((List.range' 1 (dist.length - 1)).foldl (FindSplitValue_step log sf1 draws)
      { best_gain_ratio := FLT_MIN
        best_split_val := e0.feature_val
        scan := FindSplitValue_init sf.num_labels_ entries
        evaluated := [] })

/-- The member `SplitFinder::FindSplitValue`: the returned `best_split_val` and
the value stored through `gain_ratio`. -/
def FindSplitValue (log : ℚ → ℚ) (draws : Nat → ℚ) (sf : SplitFinder) : Option (ℚ × ℚ) :=
  (FindSplitValue_run log draws sf).map (fun s => (s.best_split_val, s.best_gain_ratio))

/-- The candidates `(rand_split, gain_ratio)` that `FindSplitValue` evaluates. -/
def FindSplitValue_candidates (log : ℚ → ℚ) (draws : Nat → ℚ) (sf : SplitFinder) :
    List (ℚ × ℚ) :=
  match FindSplitValue_run log draws sf with
  | none => []
  | some s => s.evaluated

/-! ## Vote decoding and vote publication (`rand_forest_engine.cpp`) -/

/-- The element `votes[j]` of a vote vector. -/
def vote_at (votes : List Int) (j : Nat) : Int := votes.getD j 0

/-- One pass of the decoding loop body: `if (votes[max_label] < votes[j]) max_label = j`. -/
def max_label_step (votes : List Int) (max_label j : Nat) : Nat :=
  if vote_at votes max_label < vote_at votes j then j else max_label

/-- The decoding loop of `RandForestEngine::ComputeTestError` (lines 419-424):
`max_label = 0`, then `j = 1, ..., num_labels_ - 1`. -/
def ComputeTestError_max_label (num_labels : Nat) (test_votes : List Int) : Nat :=
  (List.range' 1 (num_labels - 1)).foldl (max_label_step test_votes) 0

/-- The decoding loop of `RandForestEngine::GeneratePerformanceReport`
(lines 488-493), taken when predictions are saved as labels. -/
def GeneratePerformanceReport_max_label (num_labels : Nat) (test_votes : List Int) : Nat :=
  (List.range' 1 (num_labels - 1)).foldl (max_label_step test_votes) 0

/-- Modelled from the spec: the shared table of `petuum` is not among the
sources. A table is row-addressed storage of integer counters; `table row col`
is the counter at column `col` of row `row`. -/
abbrev Table := Nat → Nat → Int

/-- Modelled from the spec: `increment(row, col, delta)` of the shared store. -/
def Table_Inc (t : Table) (row col : Nat) (delta : Int) : Table :=
  fun r c => if r = row ∧ c = col then t r c + delta else t r c

/-- Modelled from the spec: `batchIncrement(row, col→delta map)` of the shared
store; the batch is the list of its `(col, delta)` updates. -/
def Table_BatchInc (t : Table) (row : Nat) (batch : List (Nat × Int)) : Table :=
  batch.foldl (fun t u => Table_Inc t row u.1 u.2) t

/-- The sum over the labels of one row of a vote table (`SumVector`). -/
def row_sum (num_labels : Nat) (t : Table) (i : Nat) : Int :=
  ((List.range num_labels).map (fun j => t i j)).sum

/-- The member `RandForestEngine::VoteOnTestData` (lines 327-343) of one
worker: `predict i` is the vote vector that the forest's `Predict` returns for
test instance `i`, and `num_test` is `test_features_.size()`. -/
def VoteOnTestData (num_labels num_test : Nat) (predict : Nat → List Int)
    (test_vote_table : Table) : Table :=
  (List.range num_test).foldl
    (fun t i =>
      let votes := predict i
      let vote_update_batch := (List.range num_labels).map (fun j => (j, vote_at votes j))
      Table_BatchInc t i vote_update_batch)
    test_vote_table

/-- All logical workers `(client_id, thread_id)`, ordered by
`client_id * num_app_threads + thread_id`. -/
def workers (num_clients num_app_threads : Nat) : List (Nat × Nat) :=
  (List.range num_clients).flatMap
    (fun c => (List.range num_app_threads).map (fun t => (c, t)))

/-- The scenario of the spec: 2 labels, feature values `[0.1, 0.1, 0.9, 0.9]`
with labels `[0, 1, 1, 0]`, unit weights. -/
def example_balanced : SplitFinder :=
  { num_labels_ := 2, pre_split_entropy_ := 0,
    entries_ := [⟨1/10, 0, 1⟩, ⟨1/10, 1, 1⟩, ⟨9/10, 1, 1⟩, ⟨9/10, 0, 1⟩] }

/-- Entries with the distinct feature values `1, 2, 5`, each value carrying one
entry of label 0 and one of label 1, unit weights. -/
def example_three_values : SplitFinder :=
  { num_labels_ := 2, pre_split_entropy_ := 0,
    entries_ := [⟨1, 0, 1⟩, ⟨1, 1, 1⟩, ⟨2, 0, 1⟩, ⟨2, 1, 1⟩, ⟨5, 0, 1⟩, ⟨5, 1, 1⟩] }

/-- Draws for `example_three_values`: `1.5` from `[1, 2)`, then `3` from `[2, 5)`. -/
def example_draws (i : Nat) : ℚ := if i = 1 then 3 / 2 else 3

/-- Two entries of one label with the feature values `1` and `2`. -/
def example_one_label : SplitFinder :=
  { num_labels_ := 1, pre_split_entropy_ := 0, entries_ := [⟨1, 0, 1⟩, ⟨2, 0, 2⟩] }

/-! ## Decoding with the sanity check (`ComputeTestError`, lines 401-438) -/

/-- The helper `SumVector` of the anonymous namespace. -/
def SumVector (vec : List Int) : Int := vec.sum

/-- The row `i` of a vote table copied to a vector of `num_labels` counters
(`CopyToVector`). -/
def vote_row (num_labels : Nat) (t : Table) (i : Nat) : List Int :=
  (List.range num_labels).map (fun j => t i j)

/-- One iteration of the instance loop of `ComputeTestError` (lines 413-435) on
the locals `(error, num_trees)`; `none` when `CHECK_EQ` aborts. -/
def ComputeTestError_step (num_labels : Nat) (test_vote_table : Table)
    (test_labels : List Int) (s : ℚ × Int) (i : Nat) : Option (ℚ × Int) :=
  let test_votes := vote_row num_labels test_vote_table i
  let max_label := ComputeTestError_max_label num_labels test_votes
  let error := s.1 + (if test_labels.getD i 0 = (max_label : Int) then 0 else 1)
  if i = 0 then some (error, SumVector test_votes)
  else if s.2 = SumVector test_votes then some (error, s.2)
  else none

/-- The instance loop of `ComputeTestError` over the instances in `is`. -/
def ComputeTestError_loop (num_labels : Nat) (test_vote_table : Table)
    (test_labels : List Int) : List Nat → ℚ × Int → Option (ℚ × Int)
  | [], s => some s
  | i :: rest, s =>
    match ComputeTestError_step num_labels test_vote_table test_labels s i with
    | none => none
    | some s1 => ComputeTestError_loop num_labels test_vote_table test_labels rest s1

/-- The member `RandForestEngine::ComputeTestError`: `none` when a `CHECK`
aborts, otherwise the returned error rate. `fpred_open` tells whether the
prediction file could be opened; `num_test` is `test_features_.size()`. -/
def ComputeTestError (save_pred fpred_open : Bool) (num_labels num_test : Nat)
    (test_vote_table : Table) (test_labels : List Int) : Option ℚ :=
  if save_pred = true ∧ fpred_open = false then none
  else
    (ComputeTestError_loop num_labels test_vote_table test_labels (List.range num_test)
      (0, 0)).map (fun s => s.1 / num_test)

/-! ## Adding instances to the split finder (`split_finder.cpp`, lines 17-45) -/

/-- The member `SplitFinder::Reset`. -/
def Reset (_sf : SplitFinder) (num_labels : Nat) : SplitFinder :=
  { num_labels_ := num_labels, pre_split_entropy_ := 0, entries_ := [] }

/-- The member `SplitFinder::AddInstance`: `push_back` of a new entry. -/
def AddInstance (sf : SplitFinder) (feature_val : ℚ) (label : Nat) (weight : ℚ) :
    SplitFinder :=
  { sf with entries_ := sf.entries_ ++ [⟨feature_val, label, weight⟩] }

/-- The scan of `AddInstanceDedup` (lines 35-41): the entries with the weight
merged into the first entry of the same `(feature_val, label)`, or `none` when
the loop ends without `return`. -/
def AddInstanceDedup_scan (feature_val : ℚ) (label : Nat) (weight : ℚ) :
    List FeatureEntry → Option (List FeatureEntry)
  | [] => none
  | e :: rest =>
    if e.feature_val = feature_val ∧ e.label = label then
      some ({ e with weight := e.weight + weight } :: rest)
    else
      (AddInstanceDedup_scan feature_val label weight rest).map (fun r => e :: r)

/-- The member `SplitFinder::AddInstanceDedup`. -/
def AddInstanceDedup (sf : SplitFinder) (feature_val : ℚ) (label : Nat) (weight : ℚ) :
    SplitFinder :=
  match AddInstanceDedup_scan feature_val label weight sf.entries_ with
  | some entries => { sf with entries_ := entries }
  | none => AddInstance sf feature_val label weight

/-- A sequence of `AddInstanceDedup` calls, each call given as
`(feature_val, label, weight)`. -/
def AddInstanceDedup_all (sf : SplitFinder) (calls : List (ℚ × Nat × ℚ)) : SplitFinder :=
  calls.foldl (fun s c => AddInstanceDedup s c.1 c.2.1 c.2.2) sf

/-- The sum of the weights submitted for the pair `(feature_val, label)`. -/
def submitted_weight (calls : List (ℚ × Nat × ℚ)) (feature_val : ℚ) (label : Nat) : ℚ :=
  ((calls.filter (fun c => c.1 = feature_val ∧ c.2.1 = label)).map (fun c => c.2.2)).sum

/-! ## The full rescan of the commented-out code (`split_finder.cpp`, lines 118-146) -/

/-- What one worker thread does, in order. -/
inductive Event where
  | start (c_layer : Int)
  | load (c_layer : Int)
  | train (c_layer : Int)
  | next_layer (c_layer : Int)
  | test (c_layer : Int)
deriving DecidableEq, Repr

/-- The member `RandForestEngine::HasNextLayer`. -/
def HasNextLayer (num_layers c_layer : Int) : Bool := c_layer < num_layers - 1

/-- The control flow of `RandForestEngine::Start(c_layer, thread_id)` with
`FLAGS_num_layers = num_layers`: `start` marks a call, `load` the load-trees
path, `train` is `rand_forest.Train()`, `next_layer` is the block
`GoDownTrainData` / `GoDownTestData` / `InitNextLayer` (lines 266-276) and
`test` is the block `VoteOnTestData` / `VoteOnTrainData` /
`GeneratePerformanceReport` (lines 281-303). -/
def Start (num_layers : Int) (load_trees perform_test : Bool) (c_layer : Int) : List Event :=
  if c_layer ≠ 0 ∧ c_layer ≥ num_layers then [Event.start c_layer]
  else if load_trees then [Event.start c_layer, Event.load c_layer]
  else if _h : HasNextLayer num_layers c_layer = true then
    [Event.start c_layer, Event.train c_layer, Event.next_layer c_layer] ++
      Start num_layers load_trees perform_test (c_layer + 1)
  else if perform_test then [Event.start c_layer, Event.train c_layer, Event.test c_layer]
  else [Event.start c_layer, Event.train c_layer]
termination_by (num_layers - c_layer).toNat
decreasing_by
  simp only [HasNextLayer, decide_eq_true_eq] at _h
  omega

/-! ## Publishing traversal outcomes (`GoDownTrainData`, lines 358-367) -/

/-- The member `RandForestEngine::GoDownTrainData`: `num_train` is
`train_features_.size()`, `num_trees` is `rand_forest.GetNumTrees()` and
`GoDownTrees i` is the vector `res_throughout_trees` for instance `i`. -/
def GoDownTrainData (num_train num_trees : Nat) (GoDownTrees : Nat → List Int)
    (tree_idx_start c_layer : Nat) (train_intermediate_table : Table) : Table :=
  (List.range num_train).foldl
    (fun t i =>
      let res_throughout_trees := GoDownTrees i
      (List.range num_trees).foldl
        (fun t j =>
          Table_Inc t (c_layer * num_train + i) (tree_idx_start + j)
            (res_throughout_trees.getD j 0))
        t)
    train_intermediate_table

/-! ## Number of training instances (`SetReader`, lines 77-79) -/

/-- The value of `num_train_data_` after `RandForestEngine::SetReader`, for
`num_train_this_partition` of the meta file and the flag `num_train_data`. -/
def SetReader_num_train_data (num_train_this_partition FLAGS_num_train_data : Int) : Int :=
  max num_train_this_partition FLAGS_num_train_data


/-- The sum of the weights of the entries with the pair `(feature_val, label)`. -/
def stored_weight (entries : List FeatureEntry) (feature_val : ℚ) (label : Nat) : ℚ :=
  ((entries.filter (fun e => e.feature_val = feature_val ∧ e.label = label)).map
    (fun e => e.weight)).sum


/-- A test vote table after a partial aggregation: of the two workers of a
forest of 3 trees, only the worker holding 2 trees has published its votes for
the two test instances. -/
def example_partial_votes : Table :=
  VoteOnTestData 2 2 (fun _ => [2, 0]) (fun _ _ => 0)


/-! ## The gain ratio in binary32 (`split_finder.cpp`, lines 47-98 and 115-177)

The same code as above with every `float` operation rounded by `float_round`.
`ComputeEntropy` of `utils.hpp` is not among the sources; here it is the
parameter `entropy`, a function from the normalized distribution to a binary32
number. -/

/-- The update `v[i] += w` of a `std::vector<float>`, rounded. -/
def vec_add_float (v : List ℚ) (i : Nat) (w : ℚ) : List ℚ :=
  v.set i (float_round (v.getD i 0 + w))

/-- Modelled from the spec: `Normalize` of `utils.hpp` in binary32. The sum of
the components is accumulated in a `float`, and every component is divided by
it; a vector whose sum is zero is left as it is. -/
def Normalize_float (v : List ℚ) : List ℚ :=
  let sum := v.foldl (fun s x => float_round (s + x)) 0
  if sum = 0 then v else v.map (fun x => float_round (x / sum))

/-- The label histogram of `FindSplitValue` (lines 50-53) in binary32. -/
def label_distribution_float (num_labels : Nat) (entries : List FeatureEntry) : List ℚ :=
  entries.foldl (fun d e => vec_add_float d e.label 1) (List.replicate num_labels 0)

/-- The "all to right first" initialisation (lines 76-85) in binary32. -/
def FindSplitValue_init_float (num_labels : Nat) (entries : List FeatureEntry) : ScanState :=
  entries.foldl
    (fun st e => { st with
      right_dist := vec_add_float st.right_dist e.label e.weight
      right_dist_weight := float_round (st.right_dist_weight + e.weight) })
    { left_dist := List.replicate num_labels 0
      right_dist := List.replicate num_labels 0
      left_dist_weight := 0
      right_dist_weight := 0
      idx := 0 }

/-- The cursor loop of `ComputeGainRatio` (lines 126-136) in binary32. -/
def ComputeGainRatio_scan_float (split_val : ℚ) : List FeatureEntry → ScanState → ScanState
  | [], st => st
  | fe :: rest, st =>
    if fe.feature_val ≤ split_val then
      ComputeGainRatio_scan_float split_val rest
        { left_dist := vec_add_float st.left_dist fe.label fe.weight
          right_dist := vec_add_float st.right_dist fe.label (-fe.weight)
          left_dist_weight := float_round (st.left_dist_weight + fe.weight)
          right_dist_weight := float_round (st.right_dist_weight - fe.weight)
          idx := st.idx + 1 }
    else st

/-- Lines 148-176 of `ComputeGainRatio` in binary32, for the state reached by
the cursor loop. With total weight zero the quotients of lines 161-164 divide
by zero and are not numbers; what is returned then depends on how
`ComputeEntropy` treats them, and the model gives no value, `none`. -/
def gain_ratio_float (entropy : List ℚ → ℚ) (pre_split_entropy : ℚ) (st : ScanState) :
    Option ℚ :=
  let left_dist_copy := Normalize_float st.left_dist
  let right_dist_copy := Normalize_float st.right_dist
  let left_entropy := entropy left_dist_copy
  let right_entropy := entropy right_dist_copy
  let total := float_round (st.left_dist_weight + st.right_dist_weight)
  match float_div st.left_dist_weight total, float_div st.right_dist_weight total with
  | some q0, some q1 =>
    let split_dist0 := float_round q0
    let split_dist1 := float_round q1
    let cond_entropy := float_round
      (float_round (split_dist0 * left_entropy) + float_round (split_dist1 * right_entropy))
    let info_gain := float_round (pre_split_entropy - cond_entropy)
    let splitinfo := entropy (Normalize_float [split_dist0, split_dist1])
    if splitinfo = 0 then some 0
    else (float_div info_gain splitinfo).map float_round
  | _, _ => none

/-- The member `SplitFinder::ComputeGainRatio` in binary32: the returned gain
ratio and the updated reference arguments. -/
def ComputeGainRatio_float (entropy : List ℚ → ℚ) (sf : SplitFinder) (st : ScanState)
    (split_val : ℚ) : Option ℚ × ScanState :=
  let st1 := ComputeGainRatio_scan_float split_val (sf.entries_.drop st.idx) st
  (gain_ratio_float entropy sf.pre_split_entropy_ st1, st1)

/-- The candidates `(rand_split, gain_ratio)` that `FindSplitValue` evaluates
(lines 47-98), in binary32; `draws i` is the value that `dist(mt)` returns in
iteration `i`. -/
def FindSplitValue_candidates_float (entropy : List ℚ → ℚ) (draws : Nat → ℚ)
    (sf : SplitFinder) : List (ℚ × Option ℚ) :=
  match SortEntries sf.entries_ with
  | [] => []
  | e0 :: rest =>
    let entries := e0 :: rest
    let pre := entropy (Normalize_float (label_distribution_float sf.num_labels_ entries))
    let sf1 : SplitFinder :=
      { num_labels_ := sf.num_labels_, pre_split_entropy_ := pre, entries_ := entries }
    let dist := feature_value_dist e0 rest
    ((List.range' 1 (dist.length - 1)).foldl
      (fun (s : ScanState × List (ℚ × Option ℚ)) i =>
        let rand_split := draws i
        let r := ComputeGainRatio_float entropy sf1 s.1 rand_split
        (r.2, s.2 ++ [(rand_split, r.1)]))
      (FindSplitValue_init_float sf.num_labels_ entries, [])).2

/-- Two labels in the proportion 1 : 2 at both feature values: three entries at
the value `1` and six at the value `2`, unit weights. -/
def example_thirds : SplitFinder :=
  { num_labels_ := 2, pre_split_entropy_ := 0,
    entries_ := [⟨1, 0, 1⟩, ⟨1, 1, 1⟩, ⟨1, 1, 1⟩, ⟨2, 0, 1⟩, ⟨2, 0, 1⟩, ⟨2, 1, 1⟩,
      ⟨2, 1, 1⟩, ⟨2, 1, 1⟩, ⟨2, 1, 1⟩] }

/-- An entropy in bits, rounded to binary32, at the two distributions that the
examples use: `1` at `(1/2, 1/2)`, and `0.9182958602905273 = 15406448 / 2^24` at
the binary32 pair nearest to `(1/3, 2/3)`. -/
def example_entropy (dist : List ℚ) : ℚ :=
  if dist = [1 / 2, 1 / 2] then 1
  else if dist = [11184811 / 33554432, 11184811 / 16777216] then 15406448 / 16777216
  else 0

end RandForest

namespace RandForest

/-! ## Theorems: binary32 rounding -/

/-- A value within less than one half of the integer `R` rounds to `R`. -/
theorem round_half_even_near (m : ℚ) (R : Int) (h : |m - R| < 1 / 2) :
    round_half_even m = R := by
  rw [abs_lt] at h
  unfold round_half_even
  have hf1 := Int.floor_le m
  have hf2 := Int.lt_floor_add_one m
  by_cases hc : ⌊m⌋ = R
  · have : m - ⌊m⌋ < 1 / 2 := by rw [hc]; linarith
    rw [if_pos this, hc]
  · have hR : ⌊m⌋ + 1 = R := by
      have h1 : ⌊m⌋ < R + 1 := by
        have : (⌊m⌋ : ℚ) < R + 1 := by linarith
        exact_mod_cast this
      have h2 : R < ⌊m⌋ + 2 := by
        have : (R : ℚ) < ⌊m⌋ + 2 := by linarith
        exact_mod_cast this
      omega
    have hRq : (R : ℚ) = ⌊m⌋ + 1 := by rw [← hR]; push_cast; ring
    have h3 : ¬ (m - ⌊m⌋ < 1 / 2) := by rw [hRq] at h; linarith
    have h4 : 1 / 2 < m - ⌊m⌋ := by rw [hRq] at h; linarith
    rw [if_neg h3, if_pos h4, hR]

/-- The unit in the last place of a value with `2^e ≤ |x| < 2^(e+1)` in the normal range. -/
theorem float_ulp_eq (x : ℚ) (e : Int) (hx : 0 < |x|) (h1 : (2 : ℚ) ^ e ≤ |x|)
    (h2 : |x| < (2 : ℚ) ^ (e + 1)) (he : -126 ≤ e) : float_ulp x = 2 ^ (e - 23) := by
  have hlog : Int.log 2 |x| = e := by
    have a1 : e ≤ Int.log 2 |x| := by
      rw [← Int.zpow_le_iff_le_log (by norm_num) hx]
      exact_mod_cast h1
    have a2 : Int.log 2 |x| < e + 1 := by
      rw [← Int.lt_zpow_iff_log_lt (by norm_num) hx]
      exact_mod_cast h2
    omega
  unfold float_ulp
  rw [hlog, max_eq_left he]

/-- The binary32 value of a positive `x` with `2^e ≤ x < 2^(e+1)` whose scaled
value is within less than one half of the integer `R`. -/
theorem float_round_near (x : ℚ) (e R : Int) (hx : 0 < x) (h1 : (2 : ℚ) ^ e ≤ x)
    (h2 : x < (2 : ℚ) ^ (e + 1)) (he : -126 ≤ e) (hR : |x / 2 ^ (e - 23) - R| < 1 / 2) :
    float_round x = R * 2 ^ (e - 23) := by
  have habs : |x| = x := abs_of_pos hx
  have hu := float_ulp_eq x e (by rw [habs]; exact hx) (by rw [habs]; exact h1)
    (by rw [habs]; exact h2) he
  unfold float_round
  rw [if_neg hx.ne', if_pos hx, hu, round_half_even_near _ R hR]


/-- Rounding is symmetric. -/
theorem float_round_neg (x : ℚ) : float_round (-x) = -float_round x := by
  have hu : float_ulp (-x) = float_ulp x := by unfold float_ulp; rw [abs_neg]
  unfold float_round
  rw [hu]
  rcases lt_trichotomy x 0 with h | h | h
  · have h1 : ¬ (-x = 0) := by intro hc; linarith
    have h2 : (0 : ℚ) < -x := by linarith
    have h3 : ¬ (x = 0) := h.ne
    have h4 : ¬ (0 < x) := by linarith
    rw [if_neg h1, if_pos h2, if_neg h3, if_neg h4, neg_neg]
  · subst h
    simp
  · have h1 : ¬ (-x = 0) := by intro hc; linarith
    have h2 : ¬ ((0 : ℚ) < -x) := by linarith
    have h3 : ¬ (x = 0) := h.ne'
    rw [if_neg h1, if_neg h2, if_neg h3, if_pos h, neg_neg]

/-- Rounding does not go below the floor and not above the value plus one half. -/
theorem round_half_even_bounds (m : ℚ) :
    ⌊m⌋ ≤ round_half_even m ∧ (round_half_even m : ℚ) ≤ m + 1 / 2 := by
  have hf1 := Int.floor_le m
  have hf2 := Int.lt_floor_add_one m
  unfold round_half_even
  split_ifs with h1 h2 h3
  · exact ⟨le_refl _, by linarith⟩
  · refine ⟨by omega, ?_⟩
    push_cast
    linarith
  · exact ⟨le_refl _, by linarith⟩
  · refine ⟨by omega, ?_⟩
    push_cast
    linarith

/-- Positive values in the normal range below `2^24`: the unit in the last place is `2^(-j)` for
a natural `j` and at most `x * 2^(-23)`. -/
theorem float_ulp_small (x : ℚ) (hx : 0 < x) (hlo : (2 : ℚ) ^ (-126 : Int) ≤ x)
    (hhi : x < 2 ^ 24) :
    ∃ j : Nat, float_ulp x * 2 ^ j = 1 ∧ float_ulp x * 2 ^ 23 ≤ x := by
  have habs : |x| = x := abs_of_pos hx
  have he1 : (2 : ℚ) ^ Int.log 2 x ≤ x := by
    have := Int.zpow_log_le_self (b := 2) (r := x) (by norm_num) hx
    exact_mod_cast this
  have hlo' : (-126 : Int) ≤ Int.log 2 x := by
    rw [← Int.zpow_le_iff_le_log (by norm_num) hx]
    exact_mod_cast hlo
  have hhi' : Int.log 2 x < 24 := by
    rw [← Int.lt_zpow_iff_log_lt (by norm_num) hx]
    exact_mod_cast hhi
  have hu : float_ulp x = 2 ^ (Int.log 2 x - 23) := by
    unfold float_ulp
    rw [habs, max_eq_left hlo']
  refine ⟨(23 - Int.log 2 x).toNat, ?_, ?_⟩
  · rw [hu, ← zpow_natCast, ← zpow_add₀ (by norm_num : (2 : ℚ) ≠ 0)]
    have : Int.log 2 x - 23 + ((23 - Int.log 2 x).toNat : Int) = 0 := by
      rw [Int.toNat_of_nonneg (by omega)]
      ring
    rw [this, zpow_zero]
  · rw [hu]
    have : (2 : ℚ) ^ (Int.log 2 x - 23) * 2 ^ 23 = 2 ^ Int.log 2 x := by
      rw [← zpow_natCast, ← zpow_add₀ (by norm_num : (2 : ℚ) ≠ 0)]
      congr 1
      push_cast
      ring
    rw [this]
    exact he1

/-- Integers from 0 to `2^24 - 1` are binary32 numbers. -/
theorem float_round_int (n : Int) (h0 : 0 ≤ n) (h1 : n < 16777216) :
    float_round (n : ℚ) = n := by
  rcases eq_or_lt_of_le h0 with h | h
  · rw [← h]; simp [float_round]
  · have hx : (0 : ℚ) < n := by exact_mod_cast h
    have hone : (1 : ℚ) ≤ n := by exact_mod_cast (by omega : (1 : Int) ≤ n)
    obtain ⟨j, hj1, _⟩ := float_ulp_small (n : ℚ) hx
      (le_trans (by norm_num) hone) (by exact_mod_cast (by omega : n < 2 ^ 24))
    have hupos : 0 < float_ulp (n : ℚ) := by unfold float_ulp; positivity
    have hdiv : (n : ℚ) / float_ulp (n : ℚ) = ((n * 2 ^ j : Int) : ℚ) := by
      rw [div_eq_iff hupos.ne']
      push_cast
      rw [mul_assoc, mul_comm _ (float_ulp (n : ℚ)), hj1, mul_one]
    unfold float_round
    rw [if_neg hx.ne', if_pos hx, hdiv,
      round_half_even_near _ (n * 2 ^ j) (by simp)]
    push_cast
    rw [mul_assoc, mul_comm _ (float_ulp (n : ℚ)), hj1, mul_one]

/-- The floor of the rounded quotient of two integers below `2^24` is the
integer quotient. -/
theorem floor_float_round_div (a b : Int) (ha : 0 ≤ a) (ha2 : a < 16777216) (hb : 1 ≤ b)
    (hb2 : b < 16777216) :
    ⌊float_round ((a : ℚ) / (b : ℚ))⌋ = a / b := by
  have hbq : (0 : ℚ) < b := by exact_mod_cast (by omega : (0 : Int) < b)
  rcases eq_or_lt_of_le ha with h | h
  · rw [← h]; simp [float_round]
  · have haq : (0 : ℚ) < a := by exact_mod_cast h
    have hx : (0 : ℚ) < (a : ℚ) / b := div_pos haq hbq
    have hone : (1 : ℚ) ≤ a := by exact_mod_cast (by omega : (1 : Int) ≤ a)
    have hb24 : (b : ℚ) < 2 ^ 24 := by exact_mod_cast (by omega : b < 2 ^ 24)
    have ha24 : (a : ℚ) < 2 ^ 24 := by exact_mod_cast (by omega : a < 2 ^ 24)
    have hlo : (2 : ℚ) ^ (-126 : Int) ≤ (a : ℚ) / b := by
      rw [le_div_iff₀ hbq]
      have : (2 : ℚ) ^ (-126 : Int) * b ≤ 2 ^ (-126 : Int) * 2 ^ 24 :=
        mul_le_mul_of_nonneg_left hb24.le (by positivity)
      have h2 : (2 : ℚ) ^ (-126 : Int) * 2 ^ 24 ≤ 1 := by norm_num
      linarith
    have hhi : (a : ℚ) / b < 2 ^ 24 := by
      rw [div_lt_iff₀ hbq]
      have hb1 : (1 : ℚ) ≤ b := by exact_mod_cast hb
      nlinarith
    obtain ⟨j, hj1, hj2⟩ := float_ulp_small ((a : ℚ) / b) hx hlo hhi
    set u := float_ulp ((a : ℚ) / b) with hu
    have hupos : 0 < u := by rw [hu]; unfold float_ulp; positivity
    have hk1 := Int.emod_add_ediv a b
    have hk2 := Int.emod_nonneg a (by omega : b ≠ 0)
    have hk3 := Int.emod_lt_of_pos a (by omega : 0 < b)
    -- a = b * k + r with 0 ≤ r < b
    have hkq : ((a / b : Int) : ℚ) * b ≤ a := by
      have : (a / b) * b ≤ a := by nlinarith
      exact_mod_cast this
    have hkq2 : (a : ℚ) + 1 ≤ ((a / b : Int) + 1) * b := by
      have : a + 1 ≤ (a / b + 1) * b := by nlinarith
      exact_mod_cast this
    have hinv : 1 / u = 2 ^ j := by
      rw [div_eq_iff hupos.ne', mul_comm]; exact hj1.symm
    have hR := round_half_even_bounds ((a : ℚ) / b / u)
    have hfl : (a / b) * 2 ^ j ≤ ⌊(a : ℚ) / b / u⌋ := by
      rw [Int.le_floor]
      push_cast
      rw [div_eq_mul_one_div ((a : ℚ) / b) u, hinv]
      apply mul_le_mul_of_nonneg_right _ (by positivity)
      rw [le_div_iff₀ hbq]
      exact hkq
    have hRlow : ((a / b : Int) : ℚ) * 2 ^ j ≤ round_half_even ((a : ℚ) / b / u) := by
      have := le_trans hfl hR.1
      exact_mod_cast this
    unfold float_round
    rw [if_neg hx.ne', if_pos hx, ← hu, Int.floor_eq_iff]
    constructor
    · -- k ≤ R * u
      have : ((a / b : Int) : ℚ) * 2 ^ j * u ≤ round_half_even ((a : ℚ) / b / u) * u :=
        mul_le_mul_of_nonneg_right hRlow hupos.le
      rw [mul_assoc, mul_comm _ u, hj1, mul_one] at this
      exact this
    · -- R * u < k + 1
      have h1 : (round_half_even ((a : ℚ) / b / u) : ℚ) * u ≤ ((a : ℚ) / b / u + 1 / 2) * u :=
        mul_le_mul_of_nonneg_right hR.2 hupos.le
      have h2 : ((a : ℚ) / b / u + 1 / 2) * u = (a : ℚ) / b + u / 2 := by
        field_simp
        ring
      have h3 : u / 2 < 1 / b := by
        have h4 : u * 2 ^ 23 ≤ (a : ℚ) / b := hj2
        rw [le_div_iff₀ hbq] at h4
        rw [lt_div_iff₀ hbq]
        nlinarith
      have h5 : (a : ℚ) / b + 1 / b ≤ ((a / b : Int) : ℚ) + 1 := by
        rw [← add_div, div_le_iff₀ hbq]
        exact hkq2
      linarith

/-- A value of at least `2^24` is not rounded below `2^24`. -/
theorem float_round_ge (x : ℚ) (hx : (2 : ℚ) ^ 24 ≤ x) : (2 : ℚ) ^ 24 ≤ float_round x := by
  have hpos : (0 : ℚ) < x := lt_of_lt_of_le (by norm_num) hx
  have habs : |x| = x := abs_of_pos hpos
  have he : (24 : Int) ≤ Int.log 2 x := by
    rw [← Int.zpow_le_iff_le_log (by norm_num) hpos]
    exact_mod_cast hx
  have he1 : (2 : ℚ) ^ Int.log 2 x ≤ x := by
    have := Int.zpow_log_le_self (b := 2) (r := x) (by norm_num) hpos
    exact_mod_cast this
  have hu : float_ulp x = 2 ^ (Int.log 2 x - 23) := by
    unfold float_ulp
    rw [habs, max_eq_left (by omega)]
  have hupos : (0 : ℚ) < 2 ^ (Int.log 2 x - 23) := by positivity
  have hsplit : (2 : ℚ) ^ Int.log 2 x = 2 ^ (23 : Int) * 2 ^ (Int.log 2 x - 23) := by
    rw [← zpow_add₀ (by norm_num : (2 : ℚ) ≠ 0)]
    congr 1
    ring
  have hm : ((2 ^ 23 : Int) : ℚ) ≤ x / 2 ^ (Int.log 2 x - 23) := by
    rw [le_div_iff₀ hupos]
    have : ((2 ^ 23 : Int) : ℚ) = (2 : ℚ) ^ (23 : Int) := by norm_num
    rw [this, ← hsplit]
    exact he1
  have hfl : (2 ^ 23 : Int) ≤ ⌊x / 2 ^ (Int.log 2 x - 23)⌋ := Int.le_floor.mpr hm
  have hR := (round_half_even_bounds (x / 2 ^ (Int.log 2 x - 23))).1
  have hRq : ((2 : ℚ) ^ (23 : Int)) ≤ (round_half_even (x / 2 ^ (Int.log 2 x - 23)) : ℚ) := by
    have : (2 ^ 23 : Int) ≤ round_half_even (x / 2 ^ (Int.log 2 x - 23)) := le_trans hfl hR
    have h2 : ((2 ^ 23 : Int) : ℚ) ≤ (round_half_even (x / 2 ^ (Int.log 2 x - 23)) : ℚ) := by
      exact_mod_cast this
    have h3 : ((2 ^ 23 : Int) : ℚ) = (2 : ℚ) ^ (23 : Int) := by norm_num
    rw [← h3]
    exact h2
  unfold float_round
  rw [if_neg hpos.ne', if_pos hpos, hu]
  have h24 : (2 : ℚ) ^ 24 ≤ 2 ^ Int.log 2 x := by
    have : (2 : ℚ) ^ (24 : Int) ≤ 2 ^ Int.log 2 x := zpow_le_zpow_right₀ (by norm_num) he
    exact_mod_cast this
  calc (2 : ℚ) ^ 24 ≤ 2 ^ Int.log 2 x := h24
    _ = 2 ^ (23 : Int) * 2 ^ (Int.log 2 x - 23) := hsplit
    _ ≤ _ := mul_le_mul_of_nonneg_right hRq hupos.le

/-- The quotient of an integer below `2^24` by a divisor of at least `2^24` is
rounded to a value below 1. -/
theorem floor_float_round_div_large (a : Int) (P : ℚ) (ha : 0 ≤ a) (ha2 : a < 16777216)
    (hP : (2 : ℚ) ^ 24 ≤ P) : ⌊float_round ((a : ℚ) / P)⌋ = 0 := by
  have hPpos : (0 : ℚ) < P := lt_of_lt_of_le (by norm_num) hP
  rcases eq_or_lt_of_le ha with h | h
  · rw [← h]; simp [float_round]
  · have haq : (0 : ℚ) < a := by exact_mod_cast h
    have hx : (0 : ℚ) < (a : ℚ) / P := div_pos haq hPpos
    have ha24 : (a : ℚ) ≤ 2 ^ 24 - 1 := by
      have : a ≤ 2 ^ 24 - 1 := by omega
      exact_mod_cast this
    have hq : (a : ℚ) / P ≤ 1 - 1 / 2 ^ 24 := by
      rw [div_le_iff₀ hPpos]
      have : (1 - 1 / 2 ^ 24 : ℚ) * P = P - P / 2 ^ 24 := by ring
      have h1 : (1 : ℚ) ≤ P / 2 ^ 24 := by
        rw [le_div_iff₀ (by norm_num)]
        linarith
      have h2 : (2 : ℚ) ^ 24 - 1 ≤ (1 - 1 / 2 ^ 24) * P := by
        have : (1 - 1 / 2 ^ 24 : ℚ) * 2 ^ 24 ≤ (1 - 1 / 2 ^ 24) * P :=
          mul_le_mul_of_nonneg_left hP (by norm_num)
        have e : (1 - 1 / 2 ^ 24 : ℚ) * 2 ^ 24 = 2 ^ 24 - 1 := by norm_num
        linarith
      linarith
    have hlt1 : (a : ℚ) / P < (2 : ℚ) ^ (0 : Int) := by
      have : (1 : ℚ) - 1 / 2 ^ 24 < 1 := by norm_num
      simp only [zpow_zero]
      linarith
    have hlog : Int.log 2 ((a : ℚ) / P) < 0 := by
      rw [← Int.lt_zpow_iff_log_lt (by norm_num) hx]
      exact_mod_cast hlt1
    have habs : |(a : ℚ) / P| = (a : ℚ) / P := abs_of_pos hx
    have hupos : 0 < float_ulp ((a : ℚ) / P) := by unfold float_ulp; positivity
    have hu : float_ulp ((a : ℚ) / P) ≤ 1 / 2 ^ 24 := by
      unfold float_ulp
      rw [habs]
      have hexp : max (Int.log 2 ((a : ℚ) / P)) (-126) - 23 ≤ -24 := by
        have : max (Int.log 2 ((a : ℚ) / P)) (-126) ≤ -1 := max_le (by omega) (by norm_num)
        omega
      have : (2 : ℚ) ^ (max (Int.log 2 ((a : ℚ) / P)) (-126) - 23) ≤ 2 ^ (-24 : Int) :=
        zpow_le_zpow_right₀ (by norm_num) hexp
      have e : (2 : ℚ) ^ (-24 : Int) = 1 / 2 ^ 24 := by norm_num [zpow_neg]
      rw [← e]
      exact this
    obtain ⟨hR1, hR2⟩ := round_half_even_bounds ((a : ℚ) / P / float_ulp ((a : ℚ) / P))
    have hfl0 : (0 : Int) ≤ ⌊(a : ℚ) / P / float_ulp ((a : ℚ) / P)⌋ :=
      Int.floor_nonneg.mpr (div_pos hx hupos).le
    have hR0 : (0 : ℚ) ≤ (round_half_even ((a : ℚ) / P / float_ulp ((a : ℚ) / P)) : ℚ) := by
      exact_mod_cast le_trans hfl0 hR1
    have hval : float_round ((a : ℚ) / P) =
        round_half_even ((a : ℚ) / P / float_ulp ((a : ℚ) / P)) * float_ulp ((a : ℚ) / P) := by
      unfold float_round
      rw [if_neg hx.ne', if_pos hx]
    rw [Int.floor_eq_iff, hval]
    constructor
    · simp only [Int.cast_zero]
      exact mul_nonneg hR0 hupos.le
    · have h1 : (round_half_even ((a : ℚ) / P / float_ulp ((a : ℚ) / P)) : ℚ) *
          float_ulp ((a : ℚ) / P) ≤
          ((a : ℚ) / P / float_ulp ((a : ℚ) / P) + 1 / 2) * float_ulp ((a : ℚ) / P) :=
        mul_le_mul_of_nonneg_right hR2 hupos.le
      have h2 : ((a : ℚ) / P / float_ulp ((a : ℚ) / P) + 1 / 2) * float_ulp ((a : ℚ) / P) =
          (a : ℚ) / P + float_ulp ((a : ℚ) / P) / 2 := by
        field_simp
        ring
      simp only [Int.cast_zero, zero_add]
      have h3 : (1 : ℚ) - 1 / 2 ^ 24 + 1 / 2 ^ 24 / 2 < 1 := by norm_num
      linarith

/-- The `float` quotient of an integer below `2^24` by an integer cast to
`float` has the floor of the integer quotient. -/
theorem floor_float_round_div_cast (a b : Int) (ha : 0 ≤ a) (ha2 : a < 16777216)
    (hb : 1 ≤ b) : ⌊float_round ((a : ℚ) / float_round (b : ℚ))⌋ = a / b := by
  by_cases hb2 : b < 16777216
  · rw [float_round_int b (by omega) hb2]
    exact floor_float_round_div a b ha ha2 hb hb2
  · have hbq : (2 : ℚ) ^ 24 ≤ (b : ℚ) := by
      have : (2 ^ 24 : Int) ≤ b := by omega
      exact_mod_cast this
    rw [floor_float_round_div_large a _ ha ha2 (float_round_ge _ hbq)]
    exact (Int.ediv_eq_zero_of_lt ha (by omega)).symm

end RandForest

namespace RandForest

/-! ## Theorems: tree partitioning -/

/-- For a tree count below `2^24` the `float` quotient of line 156 is the
integer quotient. -/
theorem Start_base_exact (f : Flags) (hn : 0 ≤ f.num_trees) (hn2 : f.num_trees < 16777216)
    (hp : 1 ≤ f.num_clients * f.num_app_threads) :
    Start_base f = f.num_trees / (f.num_clients * f.num_app_threads) := by
  unfold Start_base
  rw [float_round_int _ hn hn2]
  exact floor_float_round_div_cast _ _ hn hn2 hp

/-- For a tree count below `2^24` the remainder
`num_trees - base * num_clients * num_app_threads` lies in
`[0, num_clients * num_app_threads)` and is at most `num_trees`. -/
theorem Start_num_left_trees0_bounds (f : Flags) (hn : 0 ≤ f.num_trees)
    (hn2 : f.num_trees < 16777216) (hC : 1 ≤ f.num_clients) (hT : 1 ≤ f.num_app_threads) :
    0 ≤ Start_num_left_trees0 f ∧
      Start_num_left_trees0 f < f.num_clients * f.num_app_threads ∧
      Start_num_left_trees0 f ≤ f.num_trees := by
  have hpos : 0 < f.num_clients * f.num_app_threads := by positivity
  have h1 := Int.emod_nonneg f.num_trees hpos.ne'
  have h2 := Int.emod_lt_of_pos f.num_trees hpos
  have h3 := Int.emod_add_ediv f.num_trees (f.num_clients * f.num_app_threads)
  have h4 : 0 ≤ f.num_trees / (f.num_clients * f.num_app_threads) :=
    Int.ediv_nonneg hn hpos.le
  unfold Start_num_left_trees0
  rw [Start_base_exact f hn hn2 (by omega)]
  refine ⟨by nlinarith, by nlinarith, ?_⟩
  nlinarith [mul_nonneg hpos.le h4]

/-- For a tree count below `2^24` the `float` quotient of line 160 is the
integer quotient. -/
theorem Start_num_left_clients_exact (f : Flags) (hn : 0 ≤ f.num_trees)
    (hn2 : f.num_trees < 16777216) (hC : 1 ≤ f.num_clients) (hT : 1 ≤ f.num_app_threads) :
    Start_num_left_clients f = Start_num_left_trees0 f / f.num_app_threads := by
  obtain ⟨hr0, _, hr2⟩ := Start_num_left_trees0_bounds f hn hn2 hC hT
  unfold Start_num_left_clients
  rw [float_round_int _ hr0 (by omega)]
  exact floor_float_round_div_cast _ _ hr0 (by omega) hT

/-- The values of lines 156 and 160 for 3 trees, one client and two threads. -/
theorem Start_3_1_2 (c : Int) :
    Start_base ⟨3, 1, 2, c⟩ = 1 ∧ Start_num_left_clients ⟨3, 1, 2, c⟩ = 0 := by
  have hb : Start_base ⟨3, 1, 2, c⟩ = 1 := by
    rw [Start_base_exact _ (by norm_num) (by norm_num) (by norm_num)]
    norm_num
  have hr : Start_num_left_trees0 ⟨3, 1, 2, c⟩ = 1 := by
    simp only [Start_num_left_trees0, hb]
    norm_num
  refine ⟨hb, ?_⟩
  rw [Start_num_left_clients_exact _ (by norm_num) (by norm_num) (by norm_num) (by norm_num),
    hr]
  norm_num

/-- The counts and start indices for 3 trees, one client and two threads. -/
theorem Start_partition_3_1_2 :
    Start_partition ⟨3, 1, 2, 0⟩ 0 = (2, 4) ∧ Start_partition ⟨3, 1, 2, 0⟩ 1 = (1, 4) := by
  obtain ⟨hb, hc⟩ := Start_3_1_2 0
  have hr : Start_num_left_trees ⟨3, 1, 2, 0⟩ = 1 := by
    simp only [Start_num_left_trees, Start_num_left_trees0, hb, hc]
    decide
  constructor
  · simp only [Start_partition, hb, hc, hr]
    decide
  · simp only [Start_partition, hb, hc, hr]
    decide

/-- C1 (code evaluated at a failing input): with `num_trees = 3`, one client and
two threads, thread 0 is given the range `[4, 6)` and thread 1 the range
`[4, 5)`: tree index 4 lies outside `[0, 3)` and is owned by both workers, and
the tree indices 0, 1 and 2 are owned by no worker. -/
theorem partition_incomplete_3_1_2 :
    tree_idx_start 3 1 2 0 0 = 4 ∧ num_trees_per_thread 3 1 2 0 0 = 2 ∧
    tree_idx_start 3 1 2 0 1 = 4 ∧ num_trees_per_thread 3 1 2 0 1 = 1 ∧
    owns 3 1 2 0 0 4 ∧ owns 3 1 2 0 1 4 ∧
    (∀ k ∈ [(0 : Int), 1, 2], ¬ owns 3 1 2 0 0 k ∧ ¬ owns 3 1 2 0 1 k) := by
  obtain ⟨h0, h1⟩ := Start_partition_3_1_2
  simp only [owns, tree_idx_start, num_trees_per_thread, h0, h1]
  decide

/-- The tree counts before worker indices 0 and 1 for 3 trees, one client and
two threads. -/
theorem trees_before_3_1_2 :
    trees_before 3 1 2 0 = 0 ∧ trees_before 3 1 2 1 = num_trees_per_thread 3 1 2 0 0 := by
  have r0 : List.range 0 = [] := rfl
  have r1 : List.range 1 = [0] := rfl
  constructor
  · simp only [trees_before, r0, List.map_nil, List.sum_nil]
  · simp only [trees_before, r1, List.map_nil, List.map_cons, List.sum_nil, List.sum_cons,
      Nat.cast_zero, Int.zero_ediv, Int.zero_emod, add_zero]

/-- C2 (code evaluated at a failing input): with `num_trees = 3`, one client and
two threads, worker index 0 starts at 4 although no worker precedes it, and
worker index 1 starts at 4 although the workers before it hold 2 trees. -/
theorem tree_idx_start_not_prefix_sum_3_1_2 :
    tree_idx_start 3 1 2 0 0 = 4 ∧ trees_before 3 1 2 0 = 0 ∧
    tree_idx_start 3 1 2 0 1 = 4 ∧ trees_before 3 1 2 1 = 2 := by
  obtain ⟨h0, h1⟩ := Start_partition_3_1_2
  rw [trees_before_3_1_2.1, trees_before_3_1_2.2]
  simp only [tree_idx_start, num_trees_per_thread, h0, h1, and_self]

/-- Worker index below the remainder, in terms of the quotient and remainder
by the thread count that the code compares against. -/
theorem index_lt_iff (r T c t : Int) (hT : 1 ≤ T) (ht0 : 0 ≤ t) (ht : t < T) :
    c * T + t < r ↔ c < r / T ∨ (c = r / T ∧ t < r - r / T * T) := by
  have hpos : 0 < T := by omega
  have h1 := Int.emod_nonneg r hpos.ne'
  have h2 := Int.emod_lt_of_pos r hpos
  have h3 := Int.emod_add_ediv r T
  constructor
  · intro h
    by_cases hc : c < r / T
    · exact Or.inl hc
    · right
      have hc1 : r / T ≤ c := not_lt.mp hc
      have : c ≤ r / T := by
        by_contra hcon
        have : r / T + 1 ≤ c := by omega
        nlinarith
      have hceq : c = r / T := le_antisymm this hc1
      refine ⟨hceq, ?_⟩
      subst hceq
      nlinarith
  · rintro (h | ⟨h1, h2⟩)
    · have : c + 1 ≤ r / T := by omega
      nlinarith
    · subst h1
      nlinarith

/-- The tree count of a worker in terms of its index and the remainder, for a
tree count below `2^24`. -/
theorem count_by_index (num_trees num_clients num_app_threads client_id thread_id : Int)
    (hn : 0 ≤ num_trees) (hn2 : num_trees < 16777216) (hC : 1 ≤ num_clients)
    (hT : 1 ≤ num_app_threads)
    (ht0 : 0 ≤ thread_id) (ht : thread_id < num_app_threads) :
    num_trees_per_thread num_trees num_clients num_app_threads client_id thread_id =
      if client_id * num_app_threads + thread_id
          < num_trees - num_trees / (num_clients * num_app_threads) * num_clients * num_app_threads
      then num_trees / (num_clients * num_app_threads) + 1
      else num_trees / (num_clients * num_app_threads) := by
  have hp : 1 ≤ num_clients * num_app_threads := by nlinarith
  have hbase := Start_base_exact ⟨num_trees, num_clients, num_app_threads, client_id⟩
    hn hn2 hp
  have hlc := Start_num_left_clients_exact ⟨num_trees, num_clients, num_app_threads, client_id⟩
    hn hn2 hC hT
  simp only at hbase hlc
  have key := index_lt_iff
    (Start_num_left_trees0 ⟨num_trees, num_clients, num_app_threads, client_id⟩)
    num_app_threads client_id thread_id hT ht0 ht
  have hr : Start_num_left_trees0 ⟨num_trees, num_clients, num_app_threads, client_id⟩ =
      num_trees - num_trees / (num_clients * num_app_threads) * num_clients * num_app_threads := by
    simp only [Start_num_left_trees0, hbase]; ring
  rw [hr] at key hlc
  unfold num_trees_per_thread Start_partition
  simp only [hlc, Start_num_left_trees, hr, hbase]
  by_cases h1 : client_id < (num_trees - num_trees / (num_clients * num_app_threads)
      * num_clients * num_app_threads) / num_app_threads
  · simp only [h1, if_true]
    rw [if_pos (key.mpr (Or.inl h1))]
  · simp only [h1, if_false]
    split_ifs with h2 h3 h3
    · rfl
    · exact absurd (key.mpr (Or.inr h2)) h3
    · rcases key.mp h3 with h | h
      · exact absurd h h1
      · exact absurd h h2
    · rfl

end RandForest

namespace RandForest

/-! ## Theorems: vote decoding -/

/-- Invariant of the decoding loop after the labels `1, ..., k` have been
visited: the current label is at most `k`, holds a maximal count among the
labels `0, ..., k`, and every smaller label has a strictly smaller count. -/
theorem max_label_loop (votes : List Int) (k : Nat) :
    let m := (List.range' 1 k).foldl (max_label_step votes) 0
    m ≤ k ∧ (∀ j, j ≤ k → vote_at votes j ≤ vote_at votes m) ∧
      (∀ j, j < m → vote_at votes j < vote_at votes m) := by
  induction k with
  | zero =>
    refine ⟨le_refl _, ?_, ?_⟩
    · intro j hj
      have : j = 0 := by omega
      subst this
      exact le_refl _
    · intro j hj
      exact absurd hj (Nat.not_lt_zero j)
  | succ k ih =>
    obtain ⟨h1, h2, h3⟩ := ih
    simp only [List.range'_concat, List.foldl_append, List.foldl_cons, List.foldl_nil, Nat.one_mul]
    generalize (List.range' 1 k).foldl (max_label_step votes) 0 = m at h1 h2 h3
    unfold max_label_step
    split_ifs with hlt
    · refine ⟨by omega, ?_, ?_⟩
      · intro j hj
        rcases Nat.lt_or_ge j (1 + k) with hj1 | hj1
        · exact le_of_lt (lt_of_le_of_lt (h2 j (by omega)) hlt)
        · have : j = 1 + k := by omega
          subst this
          exact le_refl _
      · intro j hj
        exact lt_of_le_of_lt (h2 j (by omega)) hlt
    · refine ⟨by omega, ?_, h3⟩
      intro j hj
      rcases Nat.lt_or_ge j (1 + k) with hj1 | hj1
      · exact h2 j (by omega)
      · have : j = 1 + k := by omega
        subst this
        exact not_lt.mp hlt

/-- C6: for a vote row of length `num_labels ≥ 1`, the label decoded by the
loop of `ComputeTestError` (and by the identical loop of
`GeneratePerformanceReport`) is a label below `num_labels` whose count is the
maximum of the row, and every smaller label has a strictly smaller count: it is
the smallest index attaining the maximum. -/
theorem max_label_first_argmax (num_labels : Nat) (votes : List Int)
    (hn : 1 ≤ num_labels) (_hlen : votes.length = num_labels) :
    ComputeTestError_max_label num_labels votes < num_labels ∧
    (∀ j, j < num_labels →
      vote_at votes j ≤ vote_at votes (ComputeTestError_max_label num_labels votes)) ∧
    (∀ j, j < ComputeTestError_max_label num_labels votes →
      vote_at votes j < vote_at votes (ComputeTestError_max_label num_labels votes)) ∧
    GeneratePerformanceReport_max_label num_labels votes =
      ComputeTestError_max_label num_labels votes := by
  obtain ⟨h1, h2, h3⟩ := max_label_loop votes (num_labels - 1)
  refine ⟨?_, ?_, h3, rfl⟩
  · unfold ComputeTestError_max_label
    omega
  · intro j hj
    exact h2 j (by omega)

/-- Witness for C6: the votes `[3, 5, 5, 2]` over 4 labels decode to label 1. -/
theorem max_label_first_argmax_witness :
    ComputeTestError_max_label 4 [3, 5, 5, 2] = 1 ∧
    GeneratePerformanceReport_max_label 4 [3, 5, 5, 2] = 1 ∧
    (∀ j, j < 4 → vote_at [3, 5, 5, 2] j ≤ vote_at [3, 5, 5, 2] 1) ∧
    (∀ j, j < 1 → vote_at [3, 5, 5, 2] j < vote_at [3, 5, 5, 2] 1) := by
  have h := max_label_first_argmax 4 [3, 5, 5, 2] (by decide) rfl
  have e : ComputeTestError_max_label 4 [3, 5, 5, 2] = 1 := by decide
  have e2 : GeneratePerformanceReport_max_label 4 [3, 5, 5, 2] = 1 := by decide
  rw [e] at h
  exact ⟨e, e2, h.2.1, h.2.2.1⟩

end RandForest

namespace RandForest

/-! ## Theorems: split finder -/

/-- Sorting keeps the entries: the sorted list is a permutation. -/
theorem SortEntries_perm (entries : List FeatureEntry) :
    (SortEntries entries).Perm entries :=
  List.perm_insertionSort _ entries

/-- C7: for a non-empty entry list whose entries all share the feature value
`v`, and for every outcome of the draws, `FindSplitValue` evaluates no
candidate (the candidate loop body, the only caller of `ComputeGainRatio`, never
runs) and returns `v` as threshold with the initial value
`std::numeric_limits<float>::min()` of `best_gain_ratio` as gain ratio. -/
theorem FindSplitValue_single_value (log : ℚ → ℚ) (draws : Nat → ℚ) (sf : SplitFinder)
    (v : ℚ) (hne : sf.entries_ ≠ []) (hv : ∀ e ∈ sf.entries_, e.feature_val = v) :
    FindSplitValue log draws sf = some (v, FLT_MIN) ∧
      FindSplitValue_candidates log draws sf = [] := by
  have hperm := SortEntries_perm sf.entries_
  cases hs : SortEntries sf.entries_ with
  | nil =>
    rw [hs] at hperm
    exact absurd hperm.symm.eq_nil hne
  | cons e0 rest =>
    have hall : ∀ e ∈ e0 :: rest, e.feature_val = v := by
      intro e he
      exact hv e (hperm.subset (hs ▸ he))
    have h0 : e0.feature_val = v := hall e0 (List.mem_cons_self _ _)
    have hlast : ((e0 :: rest).getLast (List.cons_ne_nil e0 rest)).feature_val = v :=
      hall _ (List.getLast_mem _)
    have hdist : feature_value_dist e0 rest = [e0.feature_val] := by
      unfold feature_value_dist
      simp only [hlast, h0, gt_iff_lt, lt_self_iff_false, if_false]
    simp only [FindSplitValue, FindSplitValue_candidates, FindSplitValue_run, hs, hdist,
      List.length_singleton, Nat.sub_self, List.range'_zero, List.foldl_nil, Option.map_some',
      h0, and_self]

/-- Witness for C7: two entries with the feature value `3`. -/
theorem FindSplitValue_single_value_witness :
    FindSplitValue (fun x => x - 1) (fun _ => 0)
        { num_labels_ := 2, pre_split_entropy_ := 0,
          entries_ := [⟨3, 1, 1⟩, ⟨3, 0, 1⟩] } = some (3, FLT_MIN) ∧
      FindSplitValue_candidates (fun x => x - 1) (fun _ => 0)
        { num_labels_ := 2, pre_split_entropy_ := 0,
          entries_ := [⟨3, 1, 1⟩, ⟨3, 0, 1⟩] } = [] :=
  FindSplitValue_single_value (fun x => x - 1) (fun _ => 0)
    { num_labels_ := 2, pre_split_entropy_ := 0, entries_ := [⟨3, 1, 1⟩, ⟨3, 0, 1⟩] } 3
    (by simp) (by simp)

/-- The guarded value is always a number: the division of line 172 is only
kept when the split information is not zero. -/
theorem gain_ratio_guarded_eq_some (log : ℚ → ℚ) (pre : ℚ) (st : ScanState) :
    gain_ratio_guarded log pre st =
      some (if splitinfo log st.left_dist_weight st.right_dist_weight = 0 then 0
        else info_gain_of log pre st / splitinfo log st.left_dist_weight st.right_dist_weight) := by
  unfold gain_ratio_guarded gain_ratio_quotient float_div
  split_ifs <;> rfl

/-- The returned gain ratio in closed form. -/
theorem gain_ratio_of_eq (log : ℚ → ℚ) (pre : ℚ) (st : ScanState) :
    gain_ratio_of log pre st =
      if splitinfo log st.left_dist_weight st.right_dist_weight = 0 then 0
      else info_gain_of log pre st / splitinfo log st.left_dist_weight st.right_dist_weight := by
  unfold gain_ratio_of
  simp only [gain_ratio_guarded_eq_some, Option.get_some]

/-- The split information of a split with all the weight on one side is zero,
for a logarithm with `log 1 = 0`. -/
theorem splitinfo_one_side (log : ℚ → ℚ) (hlog : log 1 = 0) (lw rw : ℚ)
    (hside : lw = 0 ∨ rw = 0) (htot : lw + rw ≠ 0) : splitinfo log lw rw = 0 := by
  rcases hside with h | h
  · subst h
    have hr : rw ≠ 0 := by simpa using htot
    simp [splitinfo, Normalize, ComputeEntropy, hr, hlog]
  · subst h
    have hl : lw ≠ 0 := by simpa using htot
    simp [splitinfo, Normalize, ComputeEntropy, hl, hlog]

/-- C8: in every call of `ComputeGainRatio`, if the split information (the
entropy of the normalized pair of left and right weight after the cursor loop)
is exactly zero, then the division `info_gain / splitinfo` of line 172 is a
division by zero and yields no number, the guard of lines 173-175 sets the
value to 0, and the returned gain ratio is exactly 0; in particular, for a
logarithm with `log 1 = 0`, this is so whenever one side has weight 0 and the
other side holds all the (non-zero) weight. -/
theorem ComputeGainRatio_zero_splitinfo (log : ℚ → ℚ) (sf : SplitFinder) (st : ScanState)
    (split_val : ℚ) :
    (splitinfo log (ComputeGainRatio log sf st split_val).2.left_dist_weight
        (ComputeGainRatio log sf st split_val).2.right_dist_weight = 0 →
      gain_ratio_quotient log sf.pre_split_entropy_
          (ComputeGainRatio log sf st split_val).2 = none ∧
        gain_ratio_guarded log sf.pre_split_entropy_
          (ComputeGainRatio log sf st split_val).2 = some 0 ∧
        (ComputeGainRatio log sf st split_val).1 = 0) ∧
    (log 1 = 0 →
      ((ComputeGainRatio log sf st split_val).2.left_dist_weight = 0 ∨
        (ComputeGainRatio log sf st split_val).2.right_dist_weight = 0) →
      (ComputeGainRatio log sf st split_val).2.left_dist_weight +
        (ComputeGainRatio log sf st split_val).2.right_dist_weight ≠ 0 →
      gain_ratio_quotient log sf.pre_split_entropy_
          (ComputeGainRatio log sf st split_val).2 = none ∧
        gain_ratio_guarded log sf.pre_split_entropy_
          (ComputeGainRatio log sf st split_val).2 = some 0 ∧
        (ComputeGainRatio log sf st split_val).1 = 0) := by
  have main : splitinfo log (ComputeGainRatio log sf st split_val).2.left_dist_weight
        (ComputeGainRatio log sf st split_val).2.right_dist_weight = 0 →
      gain_ratio_quotient log sf.pre_split_entropy_
          (ComputeGainRatio log sf st split_val).2 = none ∧
        gain_ratio_guarded log sf.pre_split_entropy_
          (ComputeGainRatio log sf st split_val).2 = some 0 ∧
        (ComputeGainRatio log sf st split_val).1 = 0 := by
    intro h
    simp only [ComputeGainRatio] at h ⊢
    refine ⟨?_, ?_, ?_⟩
    · simp only [gain_ratio_quotient, float_div, h, if_true]
    · simp only [gain_ratio_guarded, h, if_true]
    · rw [gain_ratio_of_eq, if_pos h]
  refine ⟨main, ?_⟩
  intro hlog hside htot
  exact main (splitinfo_one_side log hlog _ _ hside htot)

/-- Witness for C8: the two entries of `example_one_label` with threshold `5`:
all the weight moves to the left, the right weight is 0, the split information
is 0, the division of line 172 is a division by zero, and the guard makes the
gain ratio 0. -/
theorem ComputeGainRatio_zero_splitinfo_witness :
    (ComputeGainRatio (fun x => x - 1) example_one_label
        (FindSplitValue_init 1 example_one_label.entries_) 5).2.right_dist_weight = 0 ∧
    (ComputeGainRatio (fun x => x - 1) example_one_label
        (FindSplitValue_init 1 example_one_label.entries_) 5).2.left_dist_weight = 3 ∧
    gain_ratio_quotient (fun x => x - 1) example_one_label.pre_split_entropy_
        (ComputeGainRatio (fun x => x - 1) example_one_label
          (FindSplitValue_init 1 example_one_label.entries_) 5).2 = none ∧
    gain_ratio_guarded (fun x => x - 1) example_one_label.pre_split_entropy_
        (ComputeGainRatio (fun x => x - 1) example_one_label
          (FindSplitValue_init 1 example_one_label.entries_) 5).2 = some 0 ∧
    (ComputeGainRatio (fun x => x - 1) example_one_label
        (FindSplitValue_init 1 example_one_label.entries_) 5).1 = 0 := by
  have hr : (ComputeGainRatio (fun x => x - 1) example_one_label
      (FindSplitValue_init 1 example_one_label.entries_) 5).2.right_dist_weight = 0 := by
    norm_num [ComputeGainRatio, ComputeGainRatio_scan, FindSplitValue_init, example_one_label]
  have hl : (ComputeGainRatio (fun x => x - 1) example_one_label
      (FindSplitValue_init 1 example_one_label.entries_) 5).2.left_dist_weight = 3 := by
    norm_num [ComputeGainRatio, ComputeGainRatio_scan, FindSplitValue_init, example_one_label]
  refine ⟨hr, hl, ?_⟩
  exact (ComputeGainRatio_zero_splitinfo (fun x => x - 1) example_one_label
    (FindSplitValue_init 1 example_one_label.entries_) 5).2 (by norm_num) (Or.inr hr)
    (by rw [hr, hl]; norm_num)

/-- The initial value of `best_gain_ratio` is positive. -/
theorem FLT_MIN_pos : 0 < FLT_MIN := by
  unfold FLT_MIN; positivity

/-- C4 (code evaluated at a failing input): on the balanced scenario
`example_balanced` with the draw `0.5`, for every logarithm, the only candidate
is the threshold `0.5` with gain ratio `0`, which is therefore the maximum over
all candidates, but `FindSplitValue` returns the minimum feature value `0.1` as
threshold and `std::numeric_limits<float>::min()`, which is not `0`, as gain
ratio. -/
theorem FindSplitValue_drops_best_candidate (log : ℚ → ℚ) :
    FindSplitValue_candidates log (fun _ => 1/2) example_balanced = [(1/2, 0)] ∧
    FindSplitValue log (fun _ => 1/2) example_balanced = some (1/10, FLT_MIN) ∧
    FLT_MIN ≠ 0 := by
  have hs : SortEntries example_balanced.entries_ =
      [⟨1/10, 0, 1⟩, ⟨1/10, 1, 1⟩, ⟨9/10, 0, 1⟩, ⟨9/10, 1, 1⟩] := by
    norm_num [SortEntries, example_balanced, List.insertionSort, List.orderedInsert,
      SortEntries_less]
  have e : ∀ x : ℚ, x - (1 / 2 * x + 1 / 2 * x) = 0 := fun x => by ring
  have hpos : ¬ FLT_MIN < 0 := not_lt.mpr FLT_MIN_pos.le
  refine ⟨?_, ?_, FLT_MIN_pos.ne'⟩
  · unfold FindSplitValue_candidates FindSplitValue_run
    rw [hs]
    norm_num [feature_value_dist, List.range', FindSplitValue_step, ComputeGainRatio,
      ComputeGainRatio_scan, FindSplitValue_init, vec_add, gain_ratio_of_eq, info_gain_of, splitinfo,
      Normalize,
      label_distribution, example_balanced, List.getLastD, List.replicate, e, hpos]
  · unfold FindSplitValue FindSplitValue_run
    rw [hs]
    norm_num [feature_value_dist, List.range', FindSplitValue_step, ComputeGainRatio,
      ComputeGainRatio_scan, FindSplitValue_init, vec_add, gain_ratio_of_eq, info_gain_of, splitinfo,
      Normalize,
      label_distribution, example_balanced, List.getLastD, List.replicate, e, hpos]

/-- C5 (code evaluated at a failing input): on `example_three_values`, whose
distinct feature values are `1, 2, 5`, with the draws `1.5` and `3`, for every
logarithm, both candidates have gain ratio `0` and `FindSplitValue` returns the
threshold `1`: a feature value present in the entries, inside neither `(1, 2)`
nor `(2, 5)`. -/
theorem FindSplitValue_returns_feature_value (log : ℚ → ℚ) :
    FindSplitValue_candidates log example_draws example_three_values = [(3/2, 0), (3, 0)] ∧
    FindSplitValue log example_draws example_three_values = some (1, FLT_MIN) ∧
    (1 : ℚ) ∈ example_three_values.entries_.map (fun e => e.feature_val) := by
  have hs : SortEntries example_three_values.entries_ =
      [⟨1, 0, 1⟩, ⟨1, 1, 1⟩, ⟨2, 0, 1⟩, ⟨2, 1, 1⟩, ⟨5, 0, 1⟩, ⟨5, 1, 1⟩] := by
    norm_num [SortEntries, example_three_values, List.insertionSort, List.orderedInsert,
      SortEntries_less]
  have e : ∀ x : ℚ, x - (1 / 3 * x + 2 / 3 * x) = 0 := fun x => by ring
  have e2 : ∀ x : ℚ, x - (2 / 3 * x + 1 / 3 * x) = 0 := fun x => by ring
  have hpos : ¬ FLT_MIN < 0 := not_lt.mpr FLT_MIN_pos.le
  refine ⟨?_, ?_, by simp [example_three_values]⟩
  · unfold FindSplitValue_candidates FindSplitValue_run
    rw [hs]
    norm_num [feature_value_dist, List.range', FindSplitValue_step, ComputeGainRatio,
      ComputeGainRatio_scan, FindSplitValue_init, vec_add, gain_ratio_of_eq, info_gain_of, splitinfo,
      Normalize,
      label_distribution, example_three_values, example_draws, List.getLastD, List.replicate,
      e, e2, hpos]
  · unfold FindSplitValue FindSplitValue_run
    rw [hs]
    norm_num [feature_value_dist, List.range', FindSplitValue_step, ComputeGainRatio,
      ComputeGainRatio_scan, FindSplitValue_init, vec_add, gain_ratio_of_eq, info_gain_of, splitinfo,
      Normalize,
      label_distribution, example_three_values, example_draws, List.getLastD, List.replicate,
      e, e2, hpos]

end RandForest

namespace RandForest

/-! ## Theorems: vote totals -/

/-- Among the `n` indices `x, x + 1, ..., x + n - 1`, those below `r` get
`b + 1` and the others `b`: the total. -/
theorem sum_counts_inner (b r x : Int) (n : Nat) :
    ((List.range n).map (fun t : Nat => if x + (t : Int) < r then b + 1 else b)).sum =
      n * b + min (max (r - x) 0) n := by
  induction n with
  | zero => simp
  | succ n ih =>
    rw [List.range_succ, List.map_append, List.sum_append, ih]
    simp only [List.map_cons, List.map_nil, List.sum_cons, List.sum_nil, add_zero]
    push_cast
    have hn : (0 : Int) ≤ n := Int.natCast_nonneg n
    simp only [min_def, max_def]
    split_ifs <;> linarith

/-- The total over `c` blocks of `T` consecutive indices. -/
theorem sum_counts_outer (b r : Int) (T : Nat) (c : Nat) :
    ((List.range c).map (fun k : Nat =>
      (T : Int) * b + min (max (r - (k : Int) * T) 0) T)).sum =
      c * T * b + min (max r 0) (c * T) := by
  induction c with
  | zero => simp
  | succ c ih =>
    rw [List.range_succ, List.map_append, List.sum_append, ih]
    simp only [List.map_cons, List.map_nil, List.sum_cons, List.sum_nil, add_zero]
    push_cast
    have hT : (0 : Int) ≤ T := Int.natCast_nonneg T
    have hcT : (0 : Int) ≤ (c : Int) * T := by positivity
    simp only [min_def, max_def]
    split_ifs <;> nlinarith

/-- A sum over all workers is the sum over the clients of the sums over the
threads. -/
theorem sum_workers (g : Nat × Nat → Int) (C T : Nat) :
    ((workers C T).map g).sum =
      ((List.range C).map (fun c => ((List.range T).map (fun t => g (c, t))).sum)).sum := by
  unfold workers
  induction C with
  | zero => simp
  | succ C ih =>
    rw [List.range_succ, List.flatMap_append, List.map_append, List.sum_append, ih,
      List.map_append, List.sum_append]
    simp [List.flatMap_singleton, List.map_map, Function.comp_def]

/-- The tree counts of all workers add up to `num_trees`, for a tree count
below `2^24`. -/
theorem sum_num_trees_per_thread (num_trees : Int) (C T : Nat) (hn : 0 ≤ num_trees)
    (hn2 : num_trees < 16777216) (hC : 1 ≤ C) (hT : 1 ≤ T) :
    ((workers C T).map (fun w => num_trees_per_thread num_trees C T w.1 w.2)).sum =
      num_trees := by
  rw [sum_workers]
  have hTi : (1 : Int) ≤ T := by exact_mod_cast hT
  have hCi : (1 : Int) ≤ C := by exact_mod_cast hC
  have hinner : ∀ c ∈ List.range C,
      ((List.range T).map (fun t : Nat => num_trees_per_thread num_trees C T c t)).sum =
        (T : Int) * (num_trees / ((C : Int) * T)) +
          min (max ((num_trees - num_trees / ((C : Int) * T) * C * T) - (c : Int) * T) 0) T := by
    intro c _
    rw [← sum_counts_inner]
    congr 1
    apply List.map_congr_left
    intro t ht
    have ht' : ((t : Nat) : Int) < T := by exact_mod_cast List.mem_range.mp ht
    exact count_by_index num_trees C T c t hn hn2 hCi hTi (Int.natCast_nonneg t) ht'
  rw [List.map_congr_left hinner, sum_counts_outer]
  have hb := Start_num_left_trees0_bounds ⟨num_trees, C, T, 0⟩ hn hn2 hCi hTi
  have hbase := Start_base_exact ⟨num_trees, C, T, 0⟩ hn hn2 (by nlinarith)
  simp only [Start_num_left_trees0, hbase] at hb
  have h1 : num_trees - num_trees / ((C : Int) * T) * C * T =
      num_trees - (C : Int) * T * (num_trees / ((C : Int) * T)) := by ring
  rw [h1, max_eq_left hb.1, min_eq_left hb.2.1.le]
  ring

end RandForest

namespace RandForest

/-! ## Theorems: the running distributions of the split finder -/

/-- The update `v[i] += w` keeps the length. -/
theorem vec_add_length (v : List ℚ) (i : Nat) (w : ℚ) : (vec_add v i w).length = v.length := by
  simp [vec_add]

/-- The update `v[i] += w`, read at position `k`. -/
theorem vec_add_getD (v : List ℚ) (i : Nat) (w : ℚ) (k : Nat) :
    (vec_add v i w).getD k 0 = v.getD k 0 + if k = i ∧ i < v.length then w else 0 := by
  unfold vec_add
  by_cases hk : k = i
  · subst hk
    by_cases hl : k < v.length
    · simp [hl, List.getElem?_set]
    · have hl2 : v.length ≤ k := not_lt.mp hl
      simp [hl, List.getElem?_set, List.getElem?_eq_none hl2]
  · have hk2 : ¬ i = k := fun h => hk h.symm
    simp [hk, hk2, List.getElem?_set]

/-- Two vectors of one length with the same components are equal. -/
theorem vec_ext (u v : List ℚ) (hlen : u.length = v.length)
    (h : ∀ k, k < u.length → u.getD k 0 = v.getD k 0) : u = v := by
  apply List.ext_getElem hlen
  intro k h1 h2
  have := h k h1
  rwa [List.getD_eq_getElem u 0 h1, List.getD_eq_getElem v 0 h2] at this

/-- Length after a run of updates `d[e.label] += f e`. -/
theorem foldl_vec_add_length (f : FeatureEntry → ℚ) (L : List FeatureEntry) :
    ∀ v : List ℚ, (L.foldl (fun d e => vec_add d e.label (f e)) v).length = v.length := by
  induction L with
  | nil => intro v; rfl
  | cons e rest ih =>
    intro v
    rw [List.foldl_cons, ih, vec_add_length]

/-- Component `k` after a run of updates `d[e.label] += f e`: the entries with
label `k` contribute. -/
theorem foldl_vec_add_getD (f : FeatureEntry → ℚ) (L : List FeatureEntry) (k : Nat) :
    ∀ v : List ℚ, k < v.length →
      (L.foldl (fun d e => vec_add d e.label (f e)) v).getD k 0 =
        v.getD k 0 + ((L.filter (fun e => e.label = k)).map f).sum := by
  induction L with
  | nil => intro v _; simp
  | cons e rest ih =>
    intro v hk
    rw [List.foldl_cons, ih _ (by rw [vec_add_length]; exact hk), vec_add_getD]
    by_cases he : e.label = k
    · have he2 : k = e.label := he.symm
      have hl : e.label < v.length := he ▸ hk
      simp only [he2, hl, and_self, if_true, List.filter_cons, decide_True, List.map_cons,
        List.sum_cons]
      ring
    · have he2 : ¬ k = e.label := fun h => he h.symm
      simp only [he2, he, false_and, if_false, add_zero, List.filter_cons, decide_False]
      simp

/-- The sorted entry list has ascending feature values. -/
theorem SortEntries_sorted (entries : List FeatureEntry) :
    (SortEntries entries).Pairwise (fun x y => x.feature_val ≤ y.feature_val) := by
  haveI : IsTotal FeatureEntry (fun i j => ¬ SortEntries_less j i) := by
    constructor
    intro x y
    unfold SortEntries_less
    rcases lt_trichotomy x.feature_val y.feature_val with h | h | h
    · left
      intro hc
      rcases hc with hc | ⟨hc, _⟩
      · exact absurd h (not_lt.mpr hc.le)
      · exact absurd h (hc ▸ lt_irrefl _)
    · rcases le_total x.label y.label with hl | hl
      · left
        intro hc
        rcases hc with hc | ⟨_, hc⟩
        · exact absurd hc (h ▸ lt_irrefl _)
        · exact absurd hc (not_lt.mpr hl)
      · right
        intro hc
        rcases hc with hc | ⟨_, hc⟩
        · exact absurd hc (h ▸ lt_irrefl _)
        · exact absurd hc (not_lt.mpr hl)
    · right
      intro hc
      rcases hc with hc | ⟨hc, _⟩
      · exact absurd h (not_lt.mpr hc.le)
      · exact absurd h (hc ▸ lt_irrefl _)
  haveI : IsTrans FeatureEntry (fun i j => ¬ SortEntries_less j i) := by
    constructor
    intro x y z hxy hyz
    unfold SortEntries_less at hxy hyz ⊢
    push_neg at hxy hyz ⊢
    obtain ⟨h1, h2⟩ := hxy
    obtain ⟨h3, h4⟩ := hyz
    refine ⟨le_trans h1 h3, ?_⟩
    intro hzx
    have hyx : y.feature_val = x.feature_val := le_antisymm (hzx ▸ h3) h1
    have hzy : z.feature_val = y.feature_val := by rw [hzx, hyx]
    exact le_trans (h2 hyx) (h4 hzy)
  have hs := List.sorted_insertionSort (fun i j => ¬ SortEntries_less j i) entries
  refine List.Pairwise.imp ?_ hs
  intro x y hxy
  unfold SortEntries_less at hxy
  push_neg at hxy
  exact hxy.1

/-- The cursor loop on entries in ascending order moves exactly the entries
with `feature_val ≤ split_val`. -/
theorem ComputeGainRatio_scan_sorted (t : ℚ) (L : List FeatureEntry)
    (hs : L.Pairwise (fun x y => x.feature_val ≤ y.feature_val)) :
    ∀ st : ScanState, ComputeGainRatio_scan t L st =
      { left_dist := (L.filter (fun e => e.feature_val ≤ t)).foldl
          (fun d e => vec_add d e.label e.weight) st.left_dist
        right_dist := (L.filter (fun e => e.feature_val ≤ t)).foldl
          (fun d e => vec_add d e.label (-e.weight)) st.right_dist
        left_dist_weight := st.left_dist_weight +
          ((L.filter (fun e => e.feature_val ≤ t)).map (fun e => e.weight)).sum
        right_dist_weight := st.right_dist_weight -
          ((L.filter (fun e => e.feature_val ≤ t)).map (fun e => e.weight)).sum
        idx := st.idx + (L.filter (fun e => e.feature_val ≤ t)).length } := by
  induction L with
  | nil => intro st; simp [ComputeGainRatio_scan]
  | cons fe rest ih =>
    intro st
    have hrest := (List.pairwise_cons.mp hs).2
    have hhead := (List.pairwise_cons.mp hs).1
    by_cases hfe : fe.feature_val ≤ t
    · simp only [ComputeGainRatio_scan, hfe, if_true, ih hrest, List.filter_cons, decide_True,
        List.foldl_cons, List.map_cons, List.sum_cons, List.length_cons, ScanState.mk.injEq,
        true_and]
      refine ⟨by ring, by ring, by omega⟩
    · have hnone : (fe :: rest).filter (fun e => decide (e.feature_val ≤ t)) = [] := by
        apply List.filter_eq_nil_iff.mpr
        intro e he
        rcases List.mem_cons.mp he with rfl | he
        · simpa using hfe
        · have := hhead e he
          simp only [decide_eq_true_eq, not_le]
          exact lt_of_lt_of_le (not_le.mp hfe) this
      rw [hnone]
      simp [ComputeGainRatio_scan, hfe]

/-- The state after the "all to right first" loop. -/
theorem FindSplitValue_init_eq (n : Nat) (L : List FeatureEntry) :
    FindSplitValue_init n L =
      { left_dist := List.replicate n 0
        right_dist := L.foldl (fun d e => vec_add d e.label e.weight) (List.replicate n 0)
        left_dist_weight := 0
        right_dist_weight := (L.map (fun e => e.weight)).sum
        idx := 0 } := by
  have gen : ∀ st : ScanState,
      L.foldl (fun st e => { st with
        right_dist := vec_add st.right_dist e.label e.weight
        right_dist_weight := st.right_dist_weight + e.weight }) st =
      { st with
        right_dist := L.foldl (fun d e => vec_add d e.label e.weight) st.right_dist
        right_dist_weight := st.right_dist_weight + (L.map (fun e => e.weight)).sum } := by
    induction L with
    | nil => intro st; simp
    | cons e rest ih =>
      intro st
      rw [List.foldl_cons, ih]
      simp [add_assoc]
  unfold FindSplitValue_init
  rw [gen]
  simp

end RandForest

namespace RandForest

/-! ## Theorems: a node with two feature values -/

/-- In a list with ascending feature values every entry is at most the last. -/
theorem le_getLast_of_sorted (L : List FeatureEntry)
    (hs : L.Pairwise (fun x y => x.feature_val ≤ y.feature_val)) (hne : L ≠ []) :
    ∀ e ∈ L, e.feature_val ≤ (L.getLast hne).feature_val := by
  induction L with
  | nil => exact absurd rfl hne
  | cons x rest ih =>
    intro e he
    by_cases hr : rest = []
    · subst hr
      simp only [List.mem_singleton] at he
      subst he
      simp
    · rw [List.getLast_cons hr]
      rcases List.mem_cons.mp he with rfl | he
      · exact (List.pairwise_cons.mp hs).1 _ (List.getLast_mem hr)
      · exact ih (List.pairwise_cons.mp hs).2 hr e he

/-- The distinct-value loop started from `[a, b]` adds nothing when every
further value is `a` or `b`. -/
theorem distinct_loop_full (a b : ℚ) (hab : a < b) (R : List FeatureEntry)
    (hval : ∀ e ∈ R, e.feature_val = a ∨ e.feature_val = b) :
    R.foldl (fun d e => if e.feature_val > d.getLastD a then d ++ [e.feature_val] else d)
      [a, b] = [a, b] := by
  induction R with
  | nil => rfl
  | cons e rest ih =>
    have hrest : ∀ x ∈ rest, x.feature_val = a ∨ x.feature_val = b :=
      fun x hx => hval x (List.mem_cons_of_mem _ hx)
    have hlast : [a, b].getLastD a = b := rfl
    rw [List.foldl_cons, hlast]
    rcases hval e (List.mem_cons_self _ _) with h | h
    · rw [h, if_neg (not_lt.mpr hab.le)]
      exact ih hrest
    · rw [h, if_neg (lt_irrefl b)]
      exact ih hrest

/-- The distinct-value loop started from `[a]` ends with `[a, b]` when the
further values are `a` or `b` and `b` occurs. -/
theorem distinct_loop_two (a b : ℚ) (hab : a < b) (R : List FeatureEntry)
    (hval : ∀ e ∈ R, e.feature_val = a ∨ e.feature_val = b)
    (hb : ∃ e ∈ R, e.feature_val = b) :
    R.foldl (fun d e => if e.feature_val > d.getLastD a then d ++ [e.feature_val] else d)
      [a] = [a, b] := by
  induction R with
  | nil =>
    obtain ⟨e, he, _⟩ := hb
    exact absurd he (List.not_mem_nil e)
  | cons e rest ih =>
    have hrest : ∀ x ∈ rest, x.feature_val = a ∨ x.feature_val = b :=
      fun x hx => hval x (List.mem_cons_of_mem _ hx)
    have hlast : [a].getLastD a = a := rfl
    rw [List.foldl_cons, hlast]
    rcases hval e (List.mem_cons_self _ _) with h | h
    · rw [h, if_neg (lt_irrefl a)]
      apply ih hrest
      obtain ⟨x, hx, hxb⟩ := hb
      rcases List.mem_cons.mp hx with rfl | hx
      · rw [h] at hxb
        exact absurd hxb hab.ne
      · exact ⟨x, hx, hxb⟩
    · rw [h, if_pos hab]
      exact distinct_loop_full a b hab rest hrest

/-- The distinct feature values of sorted entries that take exactly the two
values `a < b`. -/
theorem feature_value_dist_two (e0 : FeatureEntry) (rest : List FeatureEntry) (a b : ℚ)
    (hab : a < b)
    (hs : (e0 :: rest).Pairwise (fun x y => x.feature_val ≤ y.feature_val))
    (hval : ∀ e ∈ e0 :: rest, e.feature_val = a ∨ e.feature_val = b)
    (ha : ∃ e ∈ e0 :: rest, e.feature_val = a) (hb : ∃ e ∈ e0 :: rest, e.feature_val = b) :
    e0.feature_val = a ∧ feature_value_dist e0 rest = [a, b] := by
  have h0 : e0.feature_val = a := by
    obtain ⟨x, hx, hxa⟩ := ha
    rcases hval e0 (List.mem_cons_self _ _) with h | h
    · exact h
    · rcases List.mem_cons.mp hx with rfl | hx
      · exact hxa
      · have := (List.pairwise_cons.mp hs).1 x hx
        rw [h, hxa] at this
        exact absurd this (not_le.mpr hab)
  have hl : ((e0 :: rest).getLast (List.cons_ne_nil e0 rest)).feature_val = b := by
    obtain ⟨x, hx, hxb⟩ := hb
    have hle := le_getLast_of_sorted (e0 :: rest) hs (List.cons_ne_nil e0 rest) x hx
    rcases hval _ (List.getLast_mem (List.cons_ne_nil e0 rest)) with h | h
    · rw [h, hxb] at hle
      exact absurd hle (not_le.mpr hab)
    · exact h
  have hbrest : ∃ e ∈ rest, e.feature_val = b := by
    obtain ⟨x, hx, hxb⟩ := hb
    rcases List.mem_cons.mp hx with rfl | hx
    · rw [h0] at hxb
      exact absurd hxb hab.ne
    · exact ⟨x, hx, hxb⟩
  refine ⟨h0, ?_⟩
  unfold feature_value_dist
  simp only [hl, h0, gt_iff_lt, hab, if_true]
  exact distinct_loop_two a b hab rest (fun x hx => hval x (List.mem_cons_of_mem _ hx)) hbrest

/-- The label histogram does not depend on the order of the entries. -/
theorem label_distribution_perm (n : Nat) (L1 L2 : List FeatureEntry) (h : L1.Perm L2) :
    label_distribution n L1 = label_distribution n L2 := by
  unfold label_distribution
  apply vec_ext
  · rw [foldl_vec_add_length, foldl_vec_add_length]
  · intro k hk
    rw [foldl_vec_add_length, List.length_replicate] at hk
    rw [foldl_vec_add_getD (fun _ => 1) L1 k _ (by simpa using hk),
      foldl_vec_add_getD (fun _ => 1) L2 k _ (by simpa using hk)]
    congr 1
    exact ((h.filter _).map _).sum_eq

/-- A sum over the entries with label `k` splits along a second test. -/
theorem sum_filter_split (f : FeatureEntry → ℚ) (p : FeatureEntry → Bool) (k : Nat)
    (L : List FeatureEntry) :
    ((L.filter (fun e => e.label = k)).map f).sum =
      (((L.filter p).filter (fun e => e.label = k)).map f).sum +
        (((L.filter (fun e => !p e)).filter (fun e => e.label = k)).map f).sum := by
  induction L with
  | nil => simp
  | cons e rest ih =>
    by_cases hp : p e = true <;> by_cases hk : e.label = k
    · simp only [List.filter_cons, hp, hk, decide_True, if_true, Bool.not_true, List.map_cons,
        List.sum_cons, ih, Bool.false_eq_true, if_false]
      ring
    · simp only [List.filter_cons, hp, hk, decide_False, if_true, Bool.not_true, ih,
        Bool.false_eq_true, if_false]
    · simp only [Bool.not_eq_true] at hp
      simp only [List.filter_cons, hp, hk, decide_True, if_true, Bool.not_false, List.map_cons,
        List.sum_cons, ih, Bool.false_eq_true, if_false]
      ring
    · simp only [Bool.not_eq_true] at hp
      simp only [List.filter_cons, hp, hk, decide_False, if_true, Bool.not_false, ih,
        Bool.false_eq_true, if_false]

/-- When both sides have the entropy of the whole node and the total weight is
not zero, the gain ratio is `0`. -/
theorem gain_ratio_of_eq_zero (log : ℚ → ℚ) (pre : ℚ) (st : ScanState)
    (hl : ComputeEntropy log (Normalize st.left_dist) = pre)
    (hr : ComputeEntropy log (Normalize st.right_dist) = pre)
    (hne : st.left_dist_weight + st.right_dist_weight ≠ 0) :
    gain_ratio_of log pre st = 0 := by
  rw [gain_ratio_of_eq]
  unfold info_gain_of
  simp only [hl, hr]
  have hz : pre - (st.left_dist_weight / (st.left_dist_weight + st.right_dist_weight) * pre +
      st.right_dist_weight / (st.left_dist_weight + st.right_dist_weight) * pre) = 0 := by
    field_simp
    ring
  rw [hz, zero_div, ite_self]

/-- The candidate recorded by one iteration of the candidate loop. -/
theorem FindSplitValue_step_evaluated (log : ℚ → ℚ) (sf : SplitFinder) (draws : Nat → ℚ)
    (s : LoopState) (i : Nat) :
    (FindSplitValue_step log sf draws s i).evaluated =
      s.evaluated ++ [(draws i, (ComputeGainRatio log sf s.scan (draws i)).1)] := by
  unfold FindSplitValue_step
  simp only []
  split_ifs <;> rfl

/-- Sorted unit-weight entries with the two feature values `a < b`, whose
entries at `a` and at `b` both have the normalized label distribution of the
whole node: the gain ratio computed from the initial state for a threshold in
`[a, b)` is `0`. -/
theorem two_values_gain_zero (log : ℚ → ℚ) (n : Nat) (S : List FeatureEntry) (a b t : ℚ)
    (hab : a < b) (hs : S.Pairwise (fun x y => x.feature_val ≤ y.feature_val))
    (hval : ∀ e ∈ S, e.feature_val = a ∨ e.feature_val = b)
    (hw : ∀ e ∈ S, e.weight = 1) (hne : S ≠ [])
    (hda : Normalize (label_distribution n (S.filter (fun e => e.feature_val = a))) =
      Normalize (label_distribution n S))
    (hdb : Normalize (label_distribution n (S.filter (fun e => e.feature_val = b))) =
      Normalize (label_distribution n S))
    (ht : a ≤ t ∧ t < b) :
    gain_ratio_of log (ComputeEntropy log (Normalize (label_distribution n S)))
      (ComputeGainRatio_scan t S (FindSplitValue_init n S)) = 0 := by
  have hfa : S.filter (fun e => decide (e.feature_val ≤ t)) =
      S.filter (fun e => decide (e.feature_val = a)) := by
    apply List.filter_congr
    intro e he
    rcases hval e he with h | h
    · simp [h, ht.1]
    · simp [h, not_le.mpr ht.2, hab.ne']
  have hfb : S.filter (fun e => !decide (e.feature_val = a)) =
      S.filter (fun e => decide (e.feature_val = b)) := by
    apply List.filter_congr
    intro e he
    rcases hval e he with h | h
    · simp [h, hab.ne]
    · simp [h, hab.ne']
  have hw1 : ∀ (p : FeatureEntry → Bool) (c : ℚ) (v : List ℚ),
      (S.filter p).foldl (fun d e => vec_add d e.label (c * e.weight)) v =
        (S.filter p).foldl (fun d e => vec_add d e.label c) v := by
    intro p c v
    apply List.foldl_ext
    intro d e he
    rw [hw e (List.mem_filter.mp he).1, mul_one]
  have hwS : ∀ v : List ℚ, S.foldl (fun d e => vec_add d e.label e.weight) v =
      S.foldl (fun d e => vec_add d e.label 1) v := by
    intro v
    apply List.foldl_ext
    intro d e he
    rw [hw e he]
  have hsum : (S.map (fun e => e.weight)).sum = S.length := by
    rw [List.map_congr_left (fun e he => hw e he)]
    simp
  have hlen : (0 : ℚ) < S.length := by
    have : 0 < S.length := List.length_pos.mpr hne
    exact_mod_cast this
  rw [ComputeGainRatio_scan_sorted t S hs, FindSplitValue_init_eq, hfa]
  apply gain_ratio_of_eq_zero
  · -- the left distribution is the histogram of the entries at `a`
    have e1 : (S.filter (fun e => decide (e.feature_val = a))).foldl
        (fun d e => vec_add d e.label e.weight) (List.replicate n 0) =
        label_distribution n (S.filter (fun e => e.feature_val = a)) := by
      have := hw1 (fun e => decide (e.feature_val = a)) 1 (List.replicate n 0)
      simp only [one_mul] at this
      rw [this]
      rfl
    simp only [e1, hda]
  · -- the right distribution is the histogram of the entries at `b`
    have e2 : (S.filter (fun e => decide (e.feature_val = a))).foldl
        (fun d e => vec_add d e.label (-e.weight))
          (S.foldl (fun d e => vec_add d e.label e.weight) (List.replicate n 0)) =
        label_distribution n (S.filter (fun e => e.feature_val = b)) := by
      have h1 := hw1 (fun e => decide (e.feature_val = a)) (-1)
        (S.foldl (fun d e => vec_add d e.label e.weight) (List.replicate n 0))
      simp only [neg_one_mul] at h1
      rw [h1, hwS]
      unfold label_distribution
      apply vec_ext
      · simp only [foldl_vec_add_length]
      · intro k hk
        simp only [foldl_vec_add_length, List.length_replicate] at hk
        have hk0 : k < (List.replicate n (0 : ℚ)).length := by simpa using hk
        have hk1 : k < (S.foldl (fun d e => vec_add d e.label 1)
            (List.replicate n (0 : ℚ))).length := by
          rw [foldl_vec_add_length]; exact hk0
        rw [foldl_vec_add_getD (fun _ => -1) _ k _ hk1,
          foldl_vec_add_getD (fun _ => 1) S k _ hk0,
          foldl_vec_add_getD (fun _ => 1) _ k _ hk0,
          sum_filter_split (fun _ => 1) (fun e => decide (e.feature_val = a)) k S, hfb]
        simp only [List.map_const', List.sum_replicate, smul_eq_mul, mul_one, mul_neg]
        ring
    simp only [e2, hdb]
  · simp only [hsum, zero_add, add_sub_cancel]
    exact hlen.ne'

/-- The cursor starts at position 0. -/
theorem FindSplitValue_init_idx (n : Nat) (L : List FeatureEntry) :
    (FindSplitValue_init n L).idx = 0 := by
  rw [FindSplitValue_init_eq]

/-- In exact arithmetic, for unit-weight entries with two distinct feature
values `a < b` in which the entries at each value have the same normalized
label distribution as the whole node, `FindSplitValue` evaluates exactly one
candidate, the draw, and the gain ratio that `ComputeGainRatio` computes for it
is exactly `0`, for every draw in `[a, b)` and every logarithm. -/
theorem no_useful_split_exact (log : ℚ → ℚ) (draws : Nat → ℚ) (sf : SplitFinder) (a b : ℚ)
    (hab : a < b)
    (hval : ∀ e ∈ sf.entries_, e.feature_val = a ∨ e.feature_val = b)
    (ha : ∃ e ∈ sf.entries_, e.feature_val = a) (hb : ∃ e ∈ sf.entries_, e.feature_val = b)
    (hw : ∀ e ∈ sf.entries_, e.weight = 1)
    (hda : Normalize (label_distribution sf.num_labels_
        (sf.entries_.filter (fun e => e.feature_val = a))) =
      Normalize (label_distribution sf.num_labels_ sf.entries_))
    (hdb : Normalize (label_distribution sf.num_labels_
        (sf.entries_.filter (fun e => e.feature_val = b))) =
      Normalize (label_distribution sf.num_labels_ sf.entries_))
    (hdraw : a ≤ draws 1 ∧ draws 1 < b) :
    FindSplitValue_candidates log draws sf = [(draws 1, 0)] := by
  have hperm := SortEntries_perm sf.entries_
  have hsorted := SortEntries_sorted sf.entries_
  have hmem : ∀ e, e ∈ SortEntries sf.entries_ ↔ e ∈ sf.entries_ := fun e => hperm.mem_iff
  have hne : SortEntries sf.entries_ ≠ [] := by
    obtain ⟨e, he, _⟩ := ha
    exact List.ne_nil_of_mem ((hmem e).mpr he)
  have hall : label_distribution sf.num_labels_ (SortEntries sf.entries_) =
      label_distribution sf.num_labels_ sf.entries_ :=
    label_distribution_perm _ _ _ hperm
  have hgain := two_values_gain_zero log sf.num_labels_ (SortEntries sf.entries_) a b (draws 1)
    hab hsorted (fun e he => hval e ((hmem e).mp he)) (fun e he => hw e ((hmem e).mp he)) hne
    (by rw [label_distribution_perm _ _ _ (hperm.filter _), hall]; exact hda)
    (by rw [label_distribution_perm _ _ _ (hperm.filter _), hall]; exact hdb) hdraw
  cases hS : SortEntries sf.entries_ with
  | nil => exact absurd hS hne
  | cons e0 rest =>
    rw [hS] at hsorted hgain
    obtain ⟨_, hdist⟩ := feature_value_dist_two e0 rest a b hab hsorted
      (fun e he => hval e ((hmem e).mp (hS ▸ he)))
      (by obtain ⟨e, he, h⟩ := ha; exact ⟨e, hS ▸ (hmem e).mpr he, h⟩)
      (by obtain ⟨e, he, h⟩ := hb; exact ⟨e, hS ▸ (hmem e).mpr he, h⟩)
    simp only [FindSplitValue_candidates, FindSplitValue_run, hS, hdist, List.length_cons,
      List.length_nil, Nat.add_sub_cancel, List.range', List.foldl_cons, List.foldl_nil,
      FindSplitValue_step_evaluated, List.nil_append, ComputeGainRatio,
      FindSplitValue_init_idx, List.drop_zero, hgain]

end RandForest

namespace RandForest

/-! ## Theorems: number of training instances -/

/-- C19 (code evaluated at a failing input): with 100 instances in the
partition and the flag `num_train_data = 10`, `SetReader` sets
`num_train_data_` to 100, not to 10; and for every flag value from 0 to the
partition size (here 1, 99 and 0) the result is the partition size. -/
theorem SetReader_ignores_flag :
    SetReader_num_train_data 100 10 = 100 ∧ SetReader_num_train_data 100 1 = 100 ∧
      SetReader_num_train_data 100 99 = 100 ∧ SetReader_num_train_data 100 0 = 100 := by
  decide

/-! ## Theorems: the partition when the worker count divides the tree count -/

end RandForest

namespace RandForest

/-! ## Theorems: `AddInstanceDedup` -/

/-- The scan finds the first entry with the given pair and merges the weight
into it. -/
theorem AddInstanceDedup_scan_found (v : ℚ) (l : Nat) (w : ℚ) :
    ∀ (entries : List FeatureEntry) (i : Nat) (e : FeatureEntry),
      entries[i]? = some e → e.feature_val = v ∧ e.label = l →
      (∀ j e1, j < i → entries[j]? = some e1 → ¬ (e1.feature_val = v ∧ e1.label = l)) →
      AddInstanceDedup_scan v l w entries =
        some (entries.set i { e with weight := e.weight + w }) := by
  intro entries
  induction entries with
  | nil => intro i e h; simp at h
  | cons x rest ih =>
    intro i e hi he hbefore
    cases i with
    | zero =>
      simp only [List.getElem?_cons_zero, Option.some.injEq] at hi
      subst hi
      simp only [AddInstanceDedup_scan, he, and_self, if_true, List.set_cons_zero]
    | succ i =>
      have hx : ¬ (x.feature_val = v ∧ x.label = l) :=
        hbefore 0 x (Nat.succ_pos i) (by simp)
      simp only [List.getElem?_cons_succ] at hi
      have hrest := ih i e hi he (fun j e1 hj hj1 =>
        hbefore (j + 1) e1 (Nat.succ_lt_succ hj) (by simpa using hj1))
      simp only [AddInstanceDedup_scan, hx, if_false, hrest, Option.map_some',
        List.set_cons_succ]

/-- The scan ends without a merge exactly when no entry has the given pair. -/
theorem AddInstanceDedup_scan_none (v : ℚ) (l : Nat) (w : ℚ) :
    ∀ entries : List FeatureEntry,
      (∀ e ∈ entries, ¬ (e.feature_val = v ∧ e.label = l)) →
      AddInstanceDedup_scan v l w entries = none := by
  intro entries
  induction entries with
  | nil => intro _; rfl
  | cons x rest ih =>
    intro h
    have hx := h x (List.mem_cons_self _ _)
    have hrest := ih (fun e he => h e (List.mem_cons_of_mem _ he))
    simp only [AddInstanceDedup_scan, hx, if_false, hrest, Option.map_none']

/-- C12: if some entry has exactly the feature value and the label of the
call, `AddInstanceDedup` adds the weight to the first such entry (position `i`)
and leaves the length, the order and every other entry unchanged (the result is
the old list with position `i` replaced); otherwise it appends exactly one new
entry `(value, label, weight)` at the end and leaves the existing entries
unchanged. The other members of the split finder are not touched. -/
theorem AddInstanceDedup_spec (sf : SplitFinder) (v : ℚ) (l : Nat) (w : ℚ) :
    (∀ (i : Nat) (e : FeatureEntry), sf.entries_[i]? = some e →
      e.feature_val = v ∧ e.label = l →
      (∀ j e1, j < i → sf.entries_[j]? = some e1 → ¬ (e1.feature_val = v ∧ e1.label = l)) →
      (AddInstanceDedup sf v l w).entries_ =
        sf.entries_.set i { e with weight := e.weight + w }) ∧
    ((∀ e ∈ sf.entries_, ¬ (e.feature_val = v ∧ e.label = l)) →
      (AddInstanceDedup sf v l w).entries_ = sf.entries_ ++ [⟨v, l, w⟩]) ∧
    (AddInstanceDedup sf v l w).num_labels_ = sf.num_labels_ ∧
    (AddInstanceDedup sf v l w).pre_split_entropy_ = sf.pre_split_entropy_ := by
  refine ⟨?_, ?_, ?_, ?_⟩
  · intro i e hi he hbefore
    unfold AddInstanceDedup
    rw [AddInstanceDedup_scan_found v l w sf.entries_ i e hi he hbefore]
  · intro h
    unfold AddInstanceDedup
    rw [AddInstanceDedup_scan_none v l w sf.entries_ h]
    rfl
  · unfold AddInstanceDedup
    split <;> rfl
  · unfold AddInstanceDedup
    split <;> rfl

/-- Witness for C12: merging weight 5 into the second of three entries, and
appending a pair that is not present. -/
theorem AddInstanceDedup_spec_witness :
    (AddInstanceDedup ⟨2, 0, [⟨1, 0, 1⟩, ⟨2, 1, 1⟩, ⟨2, 1, 7⟩]⟩ 2 1 5).entries_ =
        [⟨1, 0, 1⟩, ⟨2, 1, 6⟩, ⟨2, 1, 7⟩] ∧
      (AddInstanceDedup ⟨2, 0, [⟨1, 0, 1⟩, ⟨2, 1, 1⟩, ⟨2, 1, 7⟩]⟩ 2 0 5).entries_ =
        [⟨1, 0, 1⟩, ⟨2, 1, 1⟩, ⟨2, 1, 7⟩, ⟨2, 0, 5⟩] := by
  constructor
  · have h := (AddInstanceDedup_spec ⟨2, 0, [⟨1, 0, 1⟩, ⟨2, 1, 1⟩, ⟨2, 1, 7⟩]⟩ 2 1 5).1 1
      ⟨2, 1, 1⟩ rfl ⟨rfl, rfl⟩
      (by
        intro j e1 hj hj1
        have hj0 : j = 0 := by omega
        subst hj0
        simp only [List.getElem?_cons_zero, Option.some.injEq] at hj1
        subst hj1
        norm_num)
    rw [h]
    norm_num
  · have h := (AddInstanceDedup_spec ⟨2, 0, [⟨1, 0, 1⟩, ⟨2, 1, 1⟩, ⟨2, 1, 7⟩]⟩ 2 0 5).2.1
      (by
        intro e he
        simp only [List.mem_cons, List.mem_singleton, List.not_mem_nil, or_false] at he
        rcases he with rfl | rfl | rfl <;> norm_num)
    rw [h]
    rfl

end RandForest

namespace RandForest

/-! ## Theorems: a sequence of `AddInstanceDedup` calls -/

/-- When some entry has the pair of the call, the scan returns a list with the
same pairs in the same order, in which the stored weight of that pair has grown
by the weight of the call. -/
theorem AddInstanceDedup_scan_merge (v : ℚ) (l : Nat) (w : ℚ) :
    ∀ entries : List FeatureEntry, (∃ e ∈ entries, e.feature_val = v ∧ e.label = l) →
      ∃ r, AddInstanceDedup_scan v l w entries = some r ∧
        r.map (fun e => (e.feature_val, e.label)) =
          entries.map (fun e => (e.feature_val, e.label)) ∧
        ∀ v1 l1, stored_weight r v1 l1 =
          stored_weight entries v1 l1 + if v1 = v ∧ l1 = l then w else 0 := by
  intro entries
  induction entries with
  | nil =>
    rintro ⟨e, he, _⟩
    exact absurd he (List.not_mem_nil e)
  | cons x rest ih =>
    intro hex
    by_cases hx : x.feature_val = v ∧ x.label = l
    · refine ⟨{ x with weight := x.weight + w } :: rest, ?_, ?_, ?_⟩
      · simp only [AddInstanceDedup_scan, hx, and_self, if_true]
      · simp only [List.map_cons]
      · intro v1 l1
        unfold stored_weight
        by_cases hk : v1 = v ∧ l1 = l
        · obtain ⟨rfl, rfl⟩ := hk
          simp only [List.filter_cons, hx, and_self, decide_True, if_true, List.map_cons,
            List.sum_cons]
          ring
        · have hk1 : ¬ (x.feature_val = v1 ∧ x.label = l1) := by
            rintro ⟨h1, h2⟩
            exact hk ⟨h1 ▸ hx.1, h2 ▸ hx.2⟩
          simp only [List.filter_cons, hk1, hk, decide_False, if_false, add_zero,
            Bool.false_eq_true]
    · have hrest : ∃ e ∈ rest, e.feature_val = v ∧ e.label = l := by
        obtain ⟨e, he, hm⟩ := hex
        rcases List.mem_cons.mp he with rfl | he
        · exact absurd hm hx
        · exact ⟨e, he, hm⟩
      obtain ⟨r, hr, hkeys, hw⟩ := ih hrest
      refine ⟨x :: r, ?_, ?_, ?_⟩
      · simp only [AddInstanceDedup_scan, hx, if_false, hr, Option.map_some']
      · simp only [List.map_cons, hkeys]
      · intro v1 l1
        have := hw v1 l1
        unfold stored_weight at this ⊢
        by_cases hk1 : x.feature_val = v1 ∧ x.label = l1
        · simp only [List.filter_cons, hk1, and_self, decide_True, if_true, List.map_cons,
            List.sum_cons, this]
          ring
        · simp only [List.filter_cons, hk1, decide_False, if_false, this, Bool.false_eq_true]

/-- One call of `AddInstanceDedup`: the pairs of the entries afterwards (the
new pair is appended when it was not there) and the stored weights. -/
theorem AddInstanceDedup_effect (sf : SplitFinder) (v : ℚ) (l : Nat) (w : ℚ) :
    (AddInstanceDedup sf v l w).entries_.map (fun e => (e.feature_val, e.label)) =
        (if (v, l) ∈ sf.entries_.map (fun e => (e.feature_val, e.label)) then
          sf.entries_.map (fun e => (e.feature_val, e.label))
        else sf.entries_.map (fun e => (e.feature_val, e.label)) ++ [(v, l)]) ∧
      ∀ v1 l1, stored_weight (AddInstanceDedup sf v l w).entries_ v1 l1 =
        stored_weight sf.entries_ v1 l1 + if v1 = v ∧ l1 = l then w else 0 := by
  by_cases hex : ∃ e ∈ sf.entries_, e.feature_val = v ∧ e.label = l
  · obtain ⟨r, hr, hkeys, hw⟩ := AddInstanceDedup_scan_merge v l w sf.entries_ hex
    have hmem : (v, l) ∈ sf.entries_.map (fun e => (e.feature_val, e.label)) := by
      obtain ⟨e, he, h1, h2⟩ := hex
      exact List.mem_map.mpr ⟨e, he, by rw [h1, h2]⟩
    unfold AddInstanceDedup
    rw [hr, if_pos hmem]
    exact ⟨hkeys, hw⟩
  · have hno : ∀ e ∈ sf.entries_, ¬ (e.feature_val = v ∧ e.label = l) :=
      fun e he hm => hex ⟨e, he, hm⟩
    have hmem : ¬ (v, l) ∈ sf.entries_.map (fun e => (e.feature_val, e.label)) := by
      intro h
      obtain ⟨e, he, hk⟩ := List.mem_map.mp h
      simp only [Prod.mk.injEq] at hk
      exact hno e he hk
    unfold AddInstanceDedup
    rw [AddInstanceDedup_scan_none v l w sf.entries_ hno, if_neg hmem]
    refine ⟨by simp [AddInstance], ?_⟩
    intro v1 l1
    unfold stored_weight
    simp only [AddInstance, List.filter_append, List.map_append, List.sum_append,
      List.filter_cons, List.filter_nil]
    by_cases hk : v1 = v ∧ l1 = l
    · obtain ⟨rfl, rfl⟩ := hk
      simp
    · have hk2 : ¬ (v = v1 ∧ l = l1) := fun h => hk ⟨h.1.symm, h.2.symm⟩
      simp [hk, hk2]

/-- In a list without repeated pairs the stored weight of an entry's pair is
the weight of that entry. -/
theorem stored_weight_of_nodup :
    ∀ entries : List FeatureEntry,
      (entries.map (fun e => (e.feature_val, e.label))).Nodup →
      ∀ e ∈ entries, stored_weight entries e.feature_val e.label = e.weight := by
  intro entries
  induction entries with
  | nil => intro _ e he; exact absurd he (List.not_mem_nil e)
  | cons x rest ih =>
    intro hnd e he
    rw [List.map_cons, List.nodup_cons] at hnd
    obtain ⟨hx, hrest⟩ := hnd
    unfold stored_weight
    rcases List.mem_cons.mp he with rfl | he
    · have hnone : rest.filter (fun e1 => decide (e1.feature_val = e.feature_val ∧
          e1.label = e.label)) = [] := by
        apply List.filter_eq_nil_iff.mpr
        intro e1 he1 hm
        simp only [decide_eq_true_eq] at hm
        exact hx (List.mem_map.mpr ⟨e1, he1, by rw [hm.1, hm.2]⟩)
      simp only [List.filter_cons, and_self, decide_True, if_true, List.map_cons,
        List.sum_cons, hnone, List.map_nil, List.sum_nil, add_zero]
    · have hxe : ¬ (x.feature_val = e.feature_val ∧ x.label = e.label) := by
        intro hm
        exact hx (List.mem_map.mpr ⟨e, he, by rw [hm.1, hm.2]⟩)
      have := ih hrest e he
      unfold stored_weight at this
      simp only [List.filter_cons, hxe, decide_False, if_false, this, Bool.false_eq_true]

/-- The invariant of a sequence of `AddInstanceDedup` calls on an empty entry
list: no pair is stored twice, the stored pairs are the submitted pairs, and
the stored weight of every pair is the submitted weight. -/
theorem AddInstanceDedup_all_invariant (sf0 : SplitFinder) (num_labels : Nat)
    (calls : List (ℚ × Nat × ℚ)) :
    ((AddInstanceDedup_all (Reset sf0 num_labels) calls).entries_.map
        (fun e => (e.feature_val, e.label))).Nodup ∧
      (∀ k, k ∈ (AddInstanceDedup_all (Reset sf0 num_labels) calls).entries_.map
          (fun e => (e.feature_val, e.label)) ↔ k ∈ calls.map (fun c => (c.1, c.2.1))) ∧
      (∀ v l, stored_weight (AddInstanceDedup_all (Reset sf0 num_labels) calls).entries_ v l =
        submitted_weight calls v l) := by
  induction calls using List.reverseRecOn with
  | nil =>
    simp [AddInstanceDedup_all, Reset, stored_weight, submitted_weight]
  | append_singleton calls c ih =>
    obtain ⟨h1, h2, h3⟩ := ih
    have hstep : AddInstanceDedup_all (Reset sf0 num_labels) (calls ++ [c]) =
        AddInstanceDedup (AddInstanceDedup_all (Reset sf0 num_labels) calls) c.1 c.2.1 c.2.2 := by
      simp [AddInstanceDedup_all, List.foldl_append]
    obtain ⟨hk, hw⟩ := AddInstanceDedup_effect
      (AddInstanceDedup_all (Reset sf0 num_labels) calls) c.1 c.2.1 c.2.2
    rw [hstep]
    refine ⟨?_, ?_, ?_⟩
    · rw [hk]
      split_ifs with hmem
      · exact h1
      · rw [List.nodup_append]
        refine ⟨h1, List.nodup_singleton _, ?_⟩
        intro a ha hb
        rw [List.mem_singleton] at hb
        exact hmem (hb ▸ ha)
    · intro k
      rw [hk, List.map_append, List.mem_append, List.map_cons, List.map_nil,
        List.mem_singleton, ← h2 k]
      split_ifs with hmem
      · constructor
        · exact Or.inl
        · rintro (h | h)
          · exact h
          · exact h ▸ hmem
      · rw [List.mem_append, List.mem_singleton]
    · intro v l
      rw [hw v l, h3 v l]
      unfold submitted_weight
      rw [List.filter_append, List.map_append, List.sum_append]
      congr 1
      by_cases hc : v = c.1 ∧ l = c.2.1
      · obtain ⟨rfl, rfl⟩ := hc
        simp
      · have hc2 : ¬ (c.1 = v ∧ c.2.1 = l) := fun h => hc ⟨h.1.symm, h.2.symm⟩
        simp [hc, hc2]

/-- C18: after `Reset` followed by any finite sequence of `AddInstanceDedup`
calls, no two entries share the same `(feature value, label)`, the pairs of the
entries are exactly the pairs that were submitted (so there is exactly one
entry for each distinct submitted pair), and the weight of each entry is the
sum of all weights submitted for its pair. -/
theorem AddInstanceDedup_all_spec (sf0 : SplitFinder) (num_labels : Nat)
    (calls : List (ℚ × Nat × ℚ)) :
    ((AddInstanceDedup_all (Reset sf0 num_labels) calls).entries_.map
        (fun e => (e.feature_val, e.label))).Nodup ∧
      (∀ v l, (∃ e ∈ (AddInstanceDedup_all (Reset sf0 num_labels) calls).entries_,
          e.feature_val = v ∧ e.label = l) ↔ ∃ c ∈ calls, c.1 = v ∧ c.2.1 = l) ∧
      (∀ e ∈ (AddInstanceDedup_all (Reset sf0 num_labels) calls).entries_,
        e.weight = submitted_weight calls e.feature_val e.label) := by
  obtain ⟨h1, h2, h3⟩ := AddInstanceDedup_all_invariant sf0 num_labels calls
  refine ⟨h1, ?_, ?_⟩
  · intro v l
    have := h2 (v, l)
    simp only [List.mem_map, Prod.mk.injEq] at this
    exact this
  · intro e he
    rw [← h3, stored_weight_of_nodup _ h1 e he]

end RandForest

namespace RandForest

/-! ## Theorems: publishing traversal outcomes -/

/-- One increment, cell by cell. -/
theorem Table_Inc_apply (t : Table) (row col : Nat) (d : Int) (r c : Nat) :
    Table_Inc t row col d r c = if r = row ∧ c = col then t r c + d else t r c := rfl

/-- The inner loop of `GoDownTrainData` over the trees of one instance. -/
theorem GoDownTrainData_inner (row s : Nat) (res : List Int) (m : Nat) :
    ∀ (t : Table) (r col : Nat),
      ((List.range m).foldl (fun t j => Table_Inc t row (s + j) (res.getD j 0)) t) r col =
        t r col + if r = row ∧ s ≤ col ∧ col < s + m then res.getD (col - s) 0 else 0 := by
  induction m with
  | zero =>
    intro t r col
    have : ¬ (r = row ∧ s ≤ col ∧ col < s + 0) := by omega
    rw [List.range_zero, List.foldl_nil, if_neg this, add_zero]
  | succ m ih =>
    intro t r col
    rw [List.range_succ, List.foldl_append, List.foldl_cons, List.foldl_nil, Table_Inc_apply,
      ih]
    by_cases h1 : r = row ∧ col = s + m
    · obtain ⟨rfl, rfl⟩ := h1
      have h2 : ¬ (r = r ∧ s ≤ s + m ∧ s + m < s + m) := by omega
      have h3 : r = r ∧ s ≤ s + m ∧ s + m < s + (m + 1) := by omega
      rw [if_pos ⟨rfl, rfl⟩, if_neg h2, if_pos h3, add_zero, Nat.add_sub_cancel_left]
    · rw [if_neg h1]
      by_cases h2 : r = row ∧ s ≤ col ∧ col < s + m
      · have h3 : r = row ∧ s ≤ col ∧ col < s + (m + 1) := by omega
        rw [if_pos h2, if_pos h3]
      · have h3 : ¬ (r = row ∧ s ≤ col ∧ col < s + (m + 1)) := by omega
        rw [if_neg h2, if_neg h3]

/-- The two nested loops of `GoDownTrainData` with first row `b`, cell by cell. -/
theorem GoDownTrainData_loops (count : Nat) (GoDownTrees : Nat → List Int) (s b : Nat)
    (n : Nat) :
    ∀ (t : Table) (r col : Nat),
      ((List.range n).foldl
        (fun t i => (List.range count).foldl
          (fun t j => Table_Inc t (b + i) (s + j) ((GoDownTrees i).getD j 0)) t) t) r col =
        t r col + if b ≤ r ∧ r < b + n ∧ s ≤ col ∧ col < s + count then
          (GoDownTrees (r - b)).getD (col - s) 0 else 0 := by
  induction n with
  | zero =>
    intro t r col
    have : ¬ (b ≤ r ∧ r < b + 0 ∧ s ≤ col ∧ col < s + count) := by omega
    rw [List.range_zero, List.foldl_nil, if_neg this, add_zero]
  | succ n ih =>
    intro t r col
    rw [List.range_succ, List.foldl_append, List.foldl_cons, List.foldl_nil,
      GoDownTrainData_inner, ih]
    by_cases h1 : r = b + n ∧ s ≤ col ∧ col < s + count
    · have h2 : ¬ (b ≤ r ∧ r < b + n ∧ s ≤ col ∧ col < s + count) := by omega
      have h3 : b ≤ r ∧ r < b + (n + 1) ∧ s ≤ col ∧ col < s + count := by omega
      have h4 : r - b = n := by omega
      rw [if_pos h1, if_neg h2, if_pos h3, add_zero, h4]
    · rw [if_neg h1, add_zero]
      by_cases h2 : b ≤ r ∧ r < b + n ∧ s ≤ col ∧ col < s + count
      · have h3 : b ≤ r ∧ r < b + (n + 1) ∧ s ≤ col ∧ col < s + count := by omega
        rw [if_pos h2, if_pos h3]
      · have h3 : ¬ (b ≤ r ∧ r < b + (n + 1) ∧ s ≤ col ∧ col < s + count) := by omega
        rw [if_neg h2, if_neg h3]

/-- C17: for one worker with `n` local training instances, `count` local trees
and start index `s`, `GoDownTrainData` at layer `c` adds, for every instance
`i < n` and every local tree `j < count`, the traversal outcome of tree `j` on
instance `i` to the cell at row `c * n + i` and column `s + j`, and changes no
other cell; rows written for different (layer, instance) pairs are different. -/
theorem GoDownTrainData_frame (n count : Nat) (GoDownTrees : Nat → List Int) (s c : Nat)
    (t : Table) :
    (∀ i j, i < n → j < count →
      GoDownTrainData n count GoDownTrees s c t (c * n + i) (s + j) =
        t (c * n + i) (s + j) + (GoDownTrees i).getD j 0) ∧
    (∀ r col, (∀ i j, i < n → j < count → ¬ (r = c * n + i ∧ col = s + j)) →
      GoDownTrainData n count GoDownTrees s c t r col = t r col) ∧
    (∀ c1 c2 i1 i2, i1 < n → i2 < n → c1 * n + i1 = c2 * n + i2 → c1 = c2 ∧ i1 = i2) := by
  have hcell := GoDownTrainData_loops count GoDownTrees s (c * n) n t
  refine ⟨?_, ?_, ?_⟩
  · intro i j hi hj
    have h := hcell (c * n + i) (s + j)
    have h1 : c * n ≤ c * n + i ∧ c * n + i < c * n + n ∧ s ≤ s + j ∧ s + j < s + count := by
      omega
    rw [if_pos h1, Nat.add_sub_cancel_left, Nat.add_sub_cancel_left] at h
    exact h
  · intro r col hno
    have h := hcell r col
    have h1 : ¬ (c * n ≤ r ∧ r < c * n + n ∧ s ≤ col ∧ col < s + count) := by
      rintro ⟨ha, hb, hc, hd⟩
      exact hno (r - c * n) (col - s) (by omega) (by omega) ⟨by omega, by omega⟩
    rw [if_neg h1, add_zero] at h
    exact h
  · intro c1 c2 i1 i2 h1 h2 h
    have hn : 0 < n := by omega
    have e1 : (c1 * n + i1) / n = c1 := by
      rw [Nat.add_comm, Nat.add_mul_div_right _ _ hn, Nat.div_eq_of_lt h1, Nat.zero_add]
    have e2 : (c2 * n + i2) / n = c2 := by
      rw [Nat.add_comm, Nat.add_mul_div_right _ _ hn, Nat.div_eq_of_lt h2, Nat.zero_add]
    have hc : c1 = c2 := by rw [← e1, ← e2, h]
    subst hc
    exact ⟨rfl, by omega⟩

/-- Witness for C17: two instances, two local trees starting at tree 3, layer 1,
on an all-zero table: the cell of instance 1 and local tree 0 is row 3, column
3; the cell in row 3, column 2 is not written. -/
theorem GoDownTrainData_frame_witness :
    GoDownTrainData 2 2 (fun i => if i = 0 then [1, 0] else [2, 5]) 3 1 (fun _ _ => 0)
        (1 * 2 + 1) (3 + 0) = 0 + 2 ∧
      GoDownTrainData 2 2 (fun i => if i = 0 then [1, 0] else [2, 5]) 3 1 (fun _ _ => 0) 3 2
        = 0 := by
  have h := GoDownTrainData_frame 2 2 (fun i => if i = 0 then [1, 0] else [2, 5]) 3 1
    (fun _ _ => 0)
  refine ⟨h.1 1 0 (by decide) (by decide), h.2.1 3 2 ?_⟩
  intro i j _ _
  omega

end RandForest

namespace RandForest

/-! ## Theorems: layer progression -/

/-- The events of `Start` from layer `c` on, when `m` further layers follow. -/
theorem Start_from (L : Nat) (perform_test : Bool) :
    ∀ (m c : Nat), c + m + 1 = L →
      Start (L : Int) false perform_test (c : Int) =
        (List.range' c m).flatMap
            (fun k => [Event.start (k : Int), Event.train (k : Int),
              Event.next_layer (k : Int)]) ++
          ([Event.start ((c + m : Nat) : Int), Event.train ((c + m : Nat) : Int)] ++
            if perform_test = true then [Event.test ((c + m : Nat) : Int)] else []) := by
  intro m
  induction m with
  | zero =>
    intro c hc
    have h1 : ¬ ((c : Int) ≠ 0 ∧ (c : Int) ≥ (L : Int)) := by omega
    have h2 : ¬ (HasNextLayer (L : Int) (c : Int) = true) := by
      simp only [HasNextLayer, decide_eq_true_eq]
      omega
    rw [Start]
    simp only [h1, h2, if_false, dite_false, Bool.false_eq_true, List.range'_zero,
      List.flatMap_nil, List.nil_append, Nat.add_zero]
    split_ifs <;> rfl
  | succ m ih =>
    intro c hc
    have h1 : ¬ ((c : Int) ≠ 0 ∧ (c : Int) ≥ (L : Int)) := by omega
    have h2 : HasNextLayer (L : Int) (c : Int) = true := by
      simp only [HasNextLayer, decide_eq_true_eq]
      omega
    have hnext := ih (c + 1) (by omega)
    rw [Start]
    simp only [h1, h2, if_false, dite_true, Bool.false_eq_true]
    have hcast : ((c : Int) + 1) = ((c + 1 : Nat) : Int) := by push_cast; ring
    rw [hcast, hnext]
    have hidx : c + 1 + m = c + (m + 1) := by omega
    simp only [List.range', List.flatMap_cons, List.append_assoc, hidx]

/-- C16: for `num_layers = L ≥ 1` with `load_trees` false, a call `Start(0, _)`
makes exactly the calls `Start(0), ..., Start(L-1)` (recursion depth `L`), in
this order; in call `c` it trains the forest of layer `c`, derives the next
layer's features exactly when `c < L - 1`, and runs the test-vote/report phase
only in call `L - 1` (and there only when `perform_test` is set); then it
returns. -/
theorem Start_layer_progression (L : Nat) (hL : 1 ≤ L) (perform_test : Bool) :
    Start (L : Int) false perform_test 0 =
        (List.range (L - 1)).flatMap
            (fun k => [Event.start (k : Int), Event.train (k : Int),
              Event.next_layer (k : Int)]) ++
          ([Event.start ((L - 1 : Nat) : Int), Event.train ((L - 1 : Nat) : Int)] ++
            if perform_test = true then [Event.test ((L - 1 : Nat) : Int)] else []) := by
  have h := Start_from L perform_test (L - 1) 0 (by omega)
  rw [Nat.zero_add] at h
  rw [List.range_eq_range']
  exact_mod_cast h

/-- Witness for C16: three layers with testing enabled. -/
theorem Start_layer_progression_witness :
    Start 3 false true 0 =
      [Event.start 0, Event.train 0, Event.next_layer 0,
        Event.start 1, Event.train 1, Event.next_layer 1,
        Event.start 2, Event.train 2, Event.test 2] :=
  Start_layer_progression 3 (by decide) true

end RandForest

namespace RandForest

/-! ## Theorems: the sanity check of `ComputeTestError` -/

/-- After the first instance the loop aborts exactly when a later row has a sum
different from the recorded `num_trees`. -/
theorem ComputeTestError_loop_none (num_labels : Nat) (tbl : Table) (labels : List Int) :
    ∀ (l : List Nat), (∀ i ∈ l, i ≠ 0) → ∀ s : ℚ × Int,
      (ComputeTestError_loop num_labels tbl labels l s = none ↔
        ∃ i ∈ l, row_sum num_labels tbl i ≠ s.2) := by
  intro l
  induction l with
  | nil => intro _ s; simp [ComputeTestError_loop]
  | cons i rest ih =>
    intro hall s
    have hi : i ≠ 0 := hall i (List.mem_cons_self _ _)
    have hrest : ∀ j ∈ rest, j ≠ 0 := fun j hj => hall j (List.mem_cons_of_mem _ hj)
    have hsum : SumVector (vote_row num_labels tbl i) = row_sum num_labels tbl i := rfl
    by_cases heq : s.2 = row_sum num_labels tbl i
    · simp only [ComputeTestError_loop, ComputeTestError_step, hi, if_false, hsum, heq,
        if_true, List.mem_cons, exists_eq_or_imp, ne_eq, not_true_eq_false, false_or]
      rw [ih hrest]
    · simp only [ComputeTestError_loop, ComputeTestError_step, hi, if_false, hsum, heq,
        List.mem_cons, exists_eq_or_imp, ne_eq, true_iff]
      exact Or.inl (fun h => heq h.symm)

/-- C11 (as amended): `ComputeTestError` takes the sum of the first instance's
vote row as the number of trees. It aborts exactly when the prediction file
cannot be opened or some instance's vote row has a sum different from the sum
of the first row, and completes normally exactly when all rows have the same
sum, whatever the number of trees that have voted. -/
theorem ComputeTestError_none_iff (save_pred fpred_open : Bool) (num_labels num_test : Nat)
    (tbl : Table) (labels : List Int) :
    ComputeTestError save_pred fpred_open num_labels num_test tbl labels = none ↔
      (save_pred = true ∧ fpred_open = false) ∨
        ∃ i, i < num_test ∧ row_sum num_labels tbl i ≠ row_sum num_labels tbl 0 := by
  unfold ComputeTestError
  by_cases hf : save_pred = true ∧ fpred_open = false
  · simp only [hf, and_self, if_true, true_or]
  · rw [if_neg hf, Option.map_eq_none']
    simp only [hf, false_or]
    cases num_test with
    | zero => simp [ComputeTestError_loop]
    | succ n =>
      have hsum : SumVector (vote_row num_labels tbl 0) = row_sum num_labels tbl 0 := rfl
      rw [List.range_succ_eq_map]
      simp only [ComputeTestError_loop, ComputeTestError_step, if_true, hsum]
      rw [ComputeTestError_loop_none num_labels tbl labels _ (by simp)]
      constructor
      · rintro ⟨i, hi, hne⟩
        obtain ⟨j, hj, rfl⟩ := List.mem_map.mp hi
        exact ⟨j + 1, by have := List.mem_range.mp hj; omega, hne⟩
      · rintro ⟨i, hi, hne⟩
        cases i with
        | zero => exact absurd rfl hne
        | succ j =>
          exact ⟨j + 1, List.mem_map.mpr ⟨j, List.mem_range.mpr (by omega), rfl⟩, hne⟩

/-- C11 (counterexample): on `example_partial_votes` every vote row sums to 2
although the forest has 3 trees, and `ComputeTestError` completes normally
(with error rate 0) instead of aborting. -/
theorem ComputeTestError_accepts_partial_votes :
    row_sum 2 example_partial_votes 0 = 2 ∧ row_sum 2 example_partial_votes 1 = 2 ∧
      ((workers 1 2).map (fun w => num_trees_per_thread 3 1 2 w.1 w.2)).sum = 3 ∧
      ComputeTestError false false 2 2 example_partial_votes [0, 0] = some 0 := by
  have hsum := sum_num_trees_per_thread 3 1 2 (by decide) (by decide) (by decide) (by decide)
  simp only [Nat.cast_one, Nat.cast_ofNat] at hsum
  refine ⟨by decide, by decide, hsum, ?_⟩
  have m0 : ComputeTestError_max_label 2 (vote_row 2 example_partial_votes 0) = 0 := by decide
  have m1 : ComputeTestError_max_label 2 (vote_row 2 example_partial_votes 1) = 0 := by decide
  have s0 : SumVector (vote_row 2 example_partial_votes 0) = 2 := by decide
  have s1 : SumVector (vote_row 2 example_partial_votes 1) = 2 := by decide
  have hr : List.range 2 = [0, 1] := rfl
  simp [ComputeTestError, ComputeTestError_loop, ComputeTestError_step, hr, m0, m1, s0, s1]

end RandForest

namespace RandForest

/-! ## Theorems: the initial value of `best_gain_ratio` -/

/-- The candidate loop only appends to the list of evaluated candidates. -/
theorem FindSplitValue_loop_evaluated (log : ℚ → ℚ) (sf : SplitFinder) (draws : Nat → ℚ) :
    ∀ (l : List Nat) (s : LoopState),
      ∃ ext, (l.foldl (FindSplitValue_step log sf draws) s).evaluated = s.evaluated ++ ext := by
  intro l
  induction l with
  | nil => intro s; exact ⟨[], by simp⟩
  | cons i rest ih =>
    intro s
    obtain ⟨ext, hext⟩ := ih (FindSplitValue_step log sf draws s i)
    rw [List.foldl_cons, hext, FindSplitValue_step_evaluated, List.append_assoc]
    exact ⟨_, rfl⟩

/-- The candidate loop never lowers `best_gain_ratio`. -/
theorem FindSplitValue_loop_ge (log : ℚ → ℚ) (sf : SplitFinder) (draws : Nat → ℚ) :
    ∀ (l : List Nat) (s : LoopState),
      s.best_gain_ratio ≤ (l.foldl (FindSplitValue_step log sf draws) s).best_gain_ratio := by
  intro l
  induction l with
  | nil => intro s; exact le_refl _
  | cons i rest ih =>
    intro s
    rw [List.foldl_cons]
    refine le_trans ?_ (ih _)
    unfold FindSplitValue_step
    simp only []
    split_ifs with h
    · exact le_of_lt h
    · exact le_refl _

/-- When no evaluated candidate exceeds the current `best_gain_ratio`, the
candidate loop leaves `best_gain_ratio` and `best_split_val` as they are. -/
theorem FindSplitValue_loop_keep (log : ℚ → ℚ) (sf : SplitFinder) (draws : Nat → ℚ) :
    ∀ (l : List Nat) (s : LoopState),
      (∀ c ∈ (l.foldl (FindSplitValue_step log sf draws) s).evaluated,
        c.2 ≤ s.best_gain_ratio) →
      (l.foldl (FindSplitValue_step log sf draws) s).best_gain_ratio = s.best_gain_ratio ∧
        (l.foldl (FindSplitValue_step log sf draws) s).best_split_val = s.best_split_val := by
  intro l
  induction l with
  | nil => intro s _; exact ⟨rfl, rfl⟩
  | cons i rest ih =>
    intro s hall
    rw [List.foldl_cons] at hall ⊢
    obtain ⟨ext, hext⟩ := FindSplitValue_loop_evaluated log sf draws rest
      (FindSplitValue_step log sf draws s i)
    rw [FindSplitValue_step_evaluated] at hext
    have hmem : (draws i, (ComputeGainRatio log sf s.scan (draws i)).1) ∈
        (rest.foldl (FindSplitValue_step log sf draws)
          (FindSplitValue_step log sf draws s i)).evaluated := by
      rw [hext]
      simp
    have hle := hall _ hmem
    have hnot : ¬ ((ComputeGainRatio log sf s.scan (draws i)).1 > s.best_gain_ratio) :=
      not_lt.mpr hle
    have hb : (FindSplitValue_step log sf draws s i).best_gain_ratio = s.best_gain_ratio := by
      unfold FindSplitValue_step
      simp only [hnot, if_false]
    have hv : (FindSplitValue_step log sf draws s i).best_split_val = s.best_split_val := by
      unfold FindSplitValue_step
      simp only [hnot, if_false]
    obtain ⟨h1, h2⟩ := ih (FindSplitValue_step log sf draws s i) (by rw [hb]; exact hall)
    exact ⟨h1.trans hb, h2.trans hv⟩

/-- C15: for every non-empty entry list and every outcome of the draws,
`FindSplitValue` returns, and the gain ratio it reports is at least the initial
value `std::numeric_limits<float>::min()`, which is strictly positive; and
whenever no candidate threshold has a gain ratio strictly greater than that
value, it returns the minimum feature value as threshold and that value as gain
ratio. -/
theorem FindSplitValue_sentinel (log : ℚ → ℚ) (draws : Nat → ℚ) (sf : SplitFinder)
    (hne : sf.entries_ ≠ []) :
    ∃ v g, FindSplitValue log draws sf = some (v, g) ∧ FLT_MIN ≤ g ∧ 0 < FLT_MIN ∧
      ((∀ c ∈ FindSplitValue_candidates log draws sf, ¬ (c.2 > FLT_MIN)) →
        g = FLT_MIN ∧ (∃ e ∈ sf.entries_, e.feature_val = v) ∧
          ∀ e ∈ sf.entries_, v ≤ e.feature_val) := by
  have hperm := SortEntries_perm sf.entries_
  have hsorted := SortEntries_sorted sf.entries_
  cases hS : SortEntries sf.entries_ with
  | nil =>
    rw [hS] at hperm
    exact absurd hperm.symm.eq_nil hne
  | cons e0 rest =>
    rw [hS] at hsorted hperm
    simp only [FindSplitValue, FindSplitValue_candidates, FindSplitValue_run, hS,
      Option.map_some']
    refine ⟨_, _, rfl, ?_, FLT_MIN_pos, ?_⟩
    · exact FindSplitValue_loop_ge log _ draws _ _
    · intro hall
      obtain ⟨h1, h2⟩ := FindSplitValue_loop_keep log _ draws _ _
        (fun c hc => not_lt.mp (hall c hc))
      refine ⟨h1, ?_, ?_⟩
      · exact ⟨e0, hperm.subset (List.mem_cons_self _ _), h2.symm⟩
      · intro e he
        rw [h2]
        rcases List.mem_cons.mp (hperm.symm.subset he) with rfl | hmem
        · exact le_refl _
        · exact (List.pairwise_cons.mp hsorted).1 e hmem

/-- Witness for C15: the balanced scenario with the draw `0.5`. -/
theorem FindSplitValue_sentinel_witness :
    ∃ v g, FindSplitValue (fun x => x - 1) (fun _ => 1 / 2) example_balanced = some (v, g) ∧
      FLT_MIN ≤ g ∧ 0 < FLT_MIN ∧
      ((∀ c ∈ FindSplitValue_candidates (fun x => x - 1) (fun _ => 1 / 2) example_balanced,
          ¬ (c.2 > FLT_MIN)) →
        g = FLT_MIN ∧ (∃ e ∈ example_balanced.entries_, e.feature_val = v) ∧
          ∀ e ∈ example_balanced.entries_, v ≤ e.feature_val) :=
  FindSplitValue_sentinel (fun x => x - 1) (fun _ => 1 / 2) example_balanced
    (by simp [example_balanced])

end RandForest

namespace RandForest

/-! ## Theorems: the single cursor computes the sums of the full rescan -/

end RandForest

namespace RandForest

/-! ## Theorems: the gain ratio in binary32 -/

/-- The guard of lines 173-175 in binary32: when the total weight is not zero
and the split information is exactly zero, the gain ratio returned is 0. -/
theorem gain_ratio_float_zero_splitinfo (entropy : List ℚ → ℚ) (pre : ℚ) (st : ScanState)
    (htot : float_round (st.left_dist_weight + st.right_dist_weight) ≠ 0)
    (hz : entropy (Normalize_float
      [float_round (st.left_dist_weight /
          float_round (st.left_dist_weight + st.right_dist_weight)),
        float_round (st.right_dist_weight /
          float_round (st.left_dist_weight + st.right_dist_weight))]) = 0) :
    gain_ratio_float entropy pre st = some 0 := by
  simp only [gain_ratio_float, float_div, htot, if_false, hz, if_true]

/-- The binary32 values of the small integers. -/
theorem float_round_small :
    float_round 1 = 1 ∧ float_round 2 = 2 ∧ float_round 3 = 3 ∧ float_round 4 = 4 ∧
      float_round 5 = 5 ∧ float_round 6 = 6 ∧ float_round 7 = 7 ∧ float_round 8 = 8 ∧
      float_round 9 = 9 := by
  refine ⟨?_, ?_, ?_, ?_, ?_, ?_, ?_, ?_, ?_⟩
  · exact_mod_cast float_round_int 1 (by decide) (by decide)
  · exact_mod_cast float_round_int 2 (by decide) (by decide)
  · exact_mod_cast float_round_int 3 (by decide) (by decide)
  · exact_mod_cast float_round_int 4 (by decide) (by decide)
  · exact_mod_cast float_round_int 5 (by decide) (by decide)
  · exact_mod_cast float_round_int 6 (by decide) (by decide)
  · exact_mod_cast float_round_int 7 (by decide) (by decide)
  · exact_mod_cast float_round_int 8 (by decide) (by decide)
  · exact_mod_cast float_round_int 9 (by decide) (by decide)

/-- The binary32 values nearest to `1/3` and `2/3`, which are binary32 numbers
with the sum `1 + 2^(-25)`, rounded to `1`. -/
theorem float_round_thirds :
    float_round (1 / 3) = 11184811 / 33554432 ∧ float_round (2 / 3) = 11184811 / 16777216 ∧
      float_round (11184811 / 33554432) = 11184811 / 33554432 ∧
      float_round (11184811 / 16777216) = 11184811 / 16777216 ∧
      float_round (33554433 / 33554432) = 1 := by
  refine ⟨?_, ?_, ?_, ?_, ?_⟩
  · rw [float_round_near (1 / 3) (-2) 11184811 (by norm_num) (by norm_num) (by norm_num)
      (by norm_num) (by norm_num [abs_lt])]
    norm_num
  · rw [float_round_near (2 / 3) (-1) 11184811 (by norm_num) (by norm_num) (by norm_num)
      (by norm_num) (by norm_num [abs_lt])]
    norm_num
  · rw [float_round_near (11184811 / 33554432) (-2) 11184811 (by norm_num) (by norm_num)
      (by norm_num) (by norm_num) (by norm_num [abs_lt])]
    norm_num
  · rw [float_round_near (11184811 / 16777216) (-1) 11184811 (by norm_num) (by norm_num)
      (by norm_num) (by norm_num) (by norm_num [abs_lt])]
    norm_num
  · rw [float_round_near (33554433 / 33554432) 0 8388608 (by norm_num) (by norm_num)
      (by norm_num) (by norm_num) (by norm_num [abs_lt])]
    norm_num

/-- The roundings of lines 165-172 for the side weights 3 and 6 and the
entropy `15406448 / 2^24` on both sides. -/
theorem float_round_gain_thirds :
    float_round (10769888066333 / 35184372088832) = 5135483 / 16777216 ∧
      float_round (10769888066333 / 17592186044416) = 5135483 / 8388608 ∧
      float_round (15406449 / 16777216) = 15406449 / 16777216 ∧
      float_round (-(1 / 16777216)) = -(1 / 16777216) ∧
      float_round (-(1 / 15406448)) = -(9134973 / 140737488355328) := by
  refine ⟨?_, ?_, ?_, ?_, ?_⟩
  · rw [float_round_near (10769888066333 / 35184372088832) (-2) 10270966 (by norm_num)
      (by norm_num) (by norm_num) (by norm_num) (by norm_num [abs_lt])]
    norm_num
  · rw [float_round_near (10769888066333 / 17592186044416) (-1) 10270966 (by norm_num)
      (by norm_num) (by norm_num) (by norm_num) (by norm_num [abs_lt])]
    norm_num
  · rw [float_round_near (15406449 / 16777216) (-1) 15406449 (by norm_num)
      (by norm_num) (by norm_num) (by norm_num) (by norm_num [abs_lt])]
    norm_num
  · rw [float_round_neg, float_round_near (1 / 16777216) (-24) 8388608 (by norm_num)
      (by norm_num) (by norm_num) (by norm_num) (by norm_num [abs_lt])]
    norm_num
  · rw [float_round_neg, float_round_near (1 / 15406448) (-24) 9134973 (by norm_num)
      (by norm_num) (by norm_num) (by norm_num) (by norm_num [abs_lt])]
    norm_num

/-- The entries of `example_thirds` are in sorted order. -/
theorem SortEntries_example_thirds :
    SortEntries example_thirds.entries_ =
      [⟨1, 0, 1⟩, ⟨1, 1, 1⟩, ⟨1, 1, 1⟩, ⟨2, 0, 1⟩, ⟨2, 0, 1⟩, ⟨2, 1, 1⟩,
        ⟨2, 1, 1⟩, ⟨2, 1, 1⟩, ⟨2, 1, 1⟩] := by
  norm_num [SortEntries, example_thirds, List.insertionSort, List.orderedInsert,
    SortEntries_less]

/-- The label histogram of `example_thirds`: 3 entries of label 0, 6 of label 1. -/
theorem label_distribution_float_thirds :
    label_distribution_float 2
      [⟨1, 0, 1⟩, ⟨1, 1, 1⟩, ⟨1, 1, 1⟩, ⟨2, 0, 1⟩, ⟨2, 0, 1⟩, ⟨2, 1, 1⟩,
        ⟨2, 1, 1⟩, ⟨2, 1, 1⟩, ⟨2, 1, 1⟩] = [3, 6] := by
  obtain ⟨h1, h2, h3, h4, h5, h6, _, _, _⟩ := float_round_small
  norm_num [label_distribution_float, vec_add_float, List.replicate, h1, h2, h3, h4, h5, h6]

/-- The initial state of `example_thirds`: all nine entries on the right. -/
theorem FindSplitValue_init_float_thirds :
    FindSplitValue_init_float 2
      [⟨1, 0, 1⟩, ⟨1, 1, 1⟩, ⟨1, 1, 1⟩, ⟨2, 0, 1⟩, ⟨2, 0, 1⟩, ⟨2, 1, 1⟩,
        ⟨2, 1, 1⟩, ⟨2, 1, 1⟩, ⟨2, 1, 1⟩] = ⟨[0, 0], [3, 6], 0, 9, 0⟩ := by
  obtain ⟨h1, h2, h3, h4, h5, h6, h7, h8, h9⟩ := float_round_small
  norm_num [FindSplitValue_init_float, vec_add_float, List.replicate, h1, h2, h3, h4, h5, h6,
    h7, h8, h9]

/-- The cursor loop of `example_thirds` at the threshold `3/2`: the three
entries with the value `1` move to the left. -/
theorem ComputeGainRatio_scan_float_thirds :
    ComputeGainRatio_scan_float (3 / 2)
      [⟨1, 0, 1⟩, ⟨1, 1, 1⟩, ⟨1, 1, 1⟩, ⟨2, 0, 1⟩, ⟨2, 0, 1⟩, ⟨2, 1, 1⟩,
        ⟨2, 1, 1⟩, ⟨2, 1, 1⟩, ⟨2, 1, 1⟩]
      ⟨[0, 0], [3, 6], 0, 9, 0⟩ = ⟨[1, 2], [2, 4], 3, 6, 3⟩ := by
  obtain ⟨h1, h2, h3, h4, h5, h6, h7, h8, h9⟩ := float_round_small
  norm_num [ComputeGainRatio_scan_float, vec_add_float, h1, h2, h3, h4, h5, h6, h7, h8, h9]

/-- The four vectors normalized for `example_thirds` all become the binary32
pair nearest to `(1/3, 2/3)`. -/
theorem Normalize_float_thirds :
    Normalize_float [1, 2] = [11184811 / 33554432, 11184811 / 16777216] ∧
    Normalize_float [2, 4] = [11184811 / 33554432, 11184811 / 16777216] ∧
    Normalize_float [3, 6] = [11184811 / 33554432, 11184811 / 16777216] ∧
    Normalize_float [11184811 / 33554432, 11184811 / 16777216] =
      [11184811 / 33554432, 11184811 / 16777216] := by
  obtain ⟨h1, h2, h3, h4, h5, h6, h7, h8, h9⟩ := float_round_small
  obtain ⟨t1, t2, t3, t4, t5⟩ := float_round_thirds
  refine ⟨?_, ?_, ?_, ?_⟩
  · norm_num [Normalize_float, h1, h2, h3, h4, h5, h6, h7, h8, h9, t1, t2]
  · norm_num [Normalize_float, h1, h2, h3, h4, h5, h6, h7, h8, h9, t1, t2]
  · norm_num [Normalize_float, h1, h2, h3, h4, h5, h6, h7, h8, h9, t1, t2]
  · norm_num [Normalize_float, t3, t4, t5]

/-- Lines 148-176 in binary32 for the side weights 3 and 6 when the entropy of
both sides and of the whole node is `H = 15406448 / 2^24`: the conditional
entropy is rounded to `H + 2^(-24)`, the information gain is `-2^(-24)` and the
gain ratio is not zero. This holds for every entropy function with that value. -/
theorem gain_ratio_float_thirds (entropy : List ℚ → ℚ)
    (hH : entropy [11184811 / 33554432, 11184811 / 16777216] = 15406448 / 16777216) :
    gain_ratio_float entropy (15406448 / 16777216) ⟨[1, 2], [2, 4], 3, 6, 3⟩ =
      some (-(9134973 / 140737488355328)) := by
  obtain ⟨_, _, _, _, _, _, _, _, h9⟩ := float_round_small
  obtain ⟨t1, t2, _, _, _⟩ := float_round_thirds
  obtain ⟨g1, g2, g3, g4, g5⟩ := float_round_gain_thirds
  obtain ⟨n1, n2, _, n4⟩ := Normalize_float_thirds
  have e9 : (3 : ℚ) + 6 = 9 := by norm_num
  have q0 : float_div 3 9 = some (1 / 3) := by norm_num [float_div]
  have q1 : float_div 6 9 = some (2 / 3) := by norm_num [float_div]
  simp only [gain_ratio_float, n1, n2, hH, e9, h9, q0, q1, t1, t2, n4]
  norm_num [g1, g2, g3, g4, g5, float_div]

/-- C9 (counterexample): `example_thirds` has unit weights, the two feature
values `1 < 2`, and at each value the same normalized label distribution
`(1/3, 2/3)` as the whole node; with the draw `3/2` and an entropy in bits
rounded to binary32, the gain ratio that `ComputeGainRatio` computes in
binary32 for the only candidate is `-9134973 / 2^47`, about `-6.5e-8`, and
not 0. -/
theorem no_useful_split_float_counterexample :
    (∀ e ∈ example_thirds.entries_, e.feature_val = 1 ∨ e.feature_val = 2) ∧
    (∀ e ∈ example_thirds.entries_, e.weight = 1) ∧
    Normalize (label_distribution 2
        (example_thirds.entries_.filter (fun e => e.feature_val = 1))) =
      Normalize (label_distribution 2 example_thirds.entries_) ∧
    Normalize (label_distribution 2
        (example_thirds.entries_.filter (fun e => e.feature_val = 2))) =
      Normalize (label_distribution 2 example_thirds.entries_) ∧
    FindSplitValue_candidates_float example_entropy (fun _ => 3 / 2) example_thirds =
      [(3 / 2, some (-(9134973 / 140737488355328)))] := by
  refine ⟨by simp [example_thirds], by simp [example_thirds], ?_, ?_, ?_⟩
  · norm_num [example_thirds, label_distribution, vec_add, Normalize, List.replicate]
  · norm_num [example_thirds, label_distribution, vec_add, Normalize, List.replicate]
  · have hH : example_entropy [11184811 / 33554432, 11184811 / 16777216] =
        15406448 / 16777216 := by
      norm_num [example_entropy]
    obtain ⟨_, _, n3, _⟩ := Normalize_float_thirds
    unfold FindSplitValue_candidates_float
    rw [SortEntries_example_thirds]
    have hd : feature_value_dist ⟨1, 0, 1⟩ [⟨1, 1, 1⟩, ⟨1, 1, 1⟩, ⟨2, 0, 1⟩, ⟨2, 0, 1⟩,
        ⟨2, 1, 1⟩, ⟨2, 1, 1⟩, ⟨2, 1, 1⟩, ⟨2, 1, 1⟩] = [1, 2] := by
      norm_num [feature_value_dist, List.getLastD]
    have hn : example_thirds.num_labels_ = 2 := rfl
    simp only [hn, hd, label_distribution_float_thirds, FindSplitValue_init_float_thirds, n3,
      hH, List.length_cons, List.length_nil, List.range', List.foldl_cons, List.foldl_nil,
      ComputeGainRatio_float, List.drop_zero, ComputeGainRatio_scan_float_thirds,
      gain_ratio_float_thirds example_entropy hH, List.nil_append]

/-- The scenario of the spec in binary32: on `example_balanced` both sides
hold half of the weight and every operation is exact, so the gain ratio of the
only candidate is exactly 0, for every draw in `[0.1, 0.9)` and every entropy
function whose value `h` at `(1/2, 1/2)` is a binary32 number with `h / 2` a
binary32 number. -/
theorem no_useful_split_float_balanced (entropy : List ℚ → ℚ) (draws : Nat → ℚ)
    (hdraw : 1 / 10 ≤ draws 1 ∧ draws 1 < 9 / 10)
    (hH : float_round (entropy [1 / 2, 1 / 2]) = entropy [1 / 2, 1 / 2])
    (hH2 : float_round (1 / 2 * entropy [1 / 2, 1 / 2]) = 1 / 2 * entropy [1 / 2, 1 / 2]) :
    FindSplitValue_candidates_float entropy draws example_balanced = [(draws 1, some 0)] := by
  obtain ⟨h1, h2, h3, h4, _, _, _, _, _⟩ := float_round_small
  have hhalf : float_round (1 / 2) = 1 / 2 := by
    rw [float_round_near (1 / 2) (-1) 8388608 (by norm_num) (by norm_num) (by norm_num)
      (by norm_num) (by norm_num)]
    norm_num
  have h0 : float_round 0 = 0 := by simp [float_round]
  have hs : SortEntries example_balanced.entries_ =
      [⟨1/10, 0, 1⟩, ⟨1/10, 1, 1⟩, ⟨9/10, 0, 1⟩, ⟨9/10, 1, 1⟩] := by
    norm_num [SortEntries, example_balanced, List.insertionSort, List.orderedInsert,
      SortEntries_less]
  have hn : example_balanced.num_labels_ = 2 := rfl
  have hd : feature_value_dist ⟨1/10, 0, 1⟩ [⟨1/10, 1, 1⟩, ⟨9/10, 0, 1⟩, ⟨9/10, 1, 1⟩] =
      [1 / 10, 9 / 10] := by
    norm_num [feature_value_dist, List.getLastD]
  have hld : label_distribution_float 2
      [⟨1/10, 0, 1⟩, ⟨1/10, 1, 1⟩, ⟨9/10, 0, 1⟩, ⟨9/10, 1, 1⟩] = [2, 2] := by
    norm_num [label_distribution_float, vec_add_float, List.replicate, h1, h2]
  have hinit : FindSplitValue_init_float 2
      [⟨1/10, 0, 1⟩, ⟨1/10, 1, 1⟩, ⟨9/10, 0, 1⟩, ⟨9/10, 1, 1⟩] = ⟨[0, 0], [2, 2], 0, 4, 0⟩ := by
    norm_num [FindSplitValue_init_float, vec_add_float, List.replicate, h1, h2, h3, h4]
  have hnot : ¬ (9 / 10 ≤ draws 1) := not_le.mpr hdraw.2
  have hscan : ComputeGainRatio_scan_float (draws 1)
      [⟨1/10, 0, 1⟩, ⟨1/10, 1, 1⟩, ⟨9/10, 0, 1⟩, ⟨9/10, 1, 1⟩] ⟨[0, 0], [2, 2], 0, 4, 0⟩ =
      ⟨[1, 1], [1, 1], 2, 2, 2⟩ := by
    norm_num [ComputeGainRatio_scan_float, vec_add_float, h1, h2, h3, h4, hdraw.1, hnot]
  have hN1 : Normalize_float [1, 1] = [1 / 2, 1 / 2] := by
    norm_num [Normalize_float, h1, h2, hhalf]
  have hN2 : Normalize_float [2, 2] = [1 / 2, 1 / 2] := by
    norm_num [Normalize_float, h2, h4, hhalf]
  have hNh : Normalize_float [1 / 2, 1 / 2] = [1 / 2, 1 / 2] := by
    norm_num [Normalize_float, h1, hhalf]
  have hq : float_div 2 4 = some (1 / 2) := by norm_num [float_div]
  have e4 : (2 : ℚ) + 2 = 4 := by norm_num
  have hsum : (1 : ℚ) / 2 * entropy [1 / 2, 1 / 2] + 1 / 2 * entropy [1 / 2, 1 / 2] =
      entropy [1 / 2, 1 / 2] := by ring
  have hgain : gain_ratio_float entropy (entropy [1 / 2, 1 / 2]) ⟨[1, 1], [1, 1], 2, 2, 2⟩ =
      some 0 := by
    simp only [gain_ratio_float, hN1, e4, h4, hq, hhalf, hH2, hsum, hH, sub_self, h0, hNh]
    split_ifs with hz
    · rfl
    · simp only [float_div, hz, if_false, zero_div, Option.map_some', h0]
  unfold FindSplitValue_candidates_float
  rw [hs]
  simp only [hn, hd, hld, hinit, hN2, List.length_cons, List.length_nil, List.range',
    List.foldl_cons, List.foldl_nil, ComputeGainRatio_float, List.drop_zero, hscan, hgain,
    List.nil_append]

/-- C9 (as amended): in exact arithmetic, for unit-weight entries with two
distinct feature values `a < b` in which the entries at each value have the
same normalized label distribution as the whole node, `FindSplitValue`
evaluates exactly one candidate, the draw, and the gain ratio that
`ComputeGainRatio` computes for it is exactly `0`, for every draw in `[a, b)`
and every logarithm; and in binary32, for the scenario of the spec (2 labels,
feature values `[0.1, 0.1, 0.9, 0.9]`, labels `[0, 1, 1, 0]`), the gain ratio of
the only candidate is exactly `0` for every draw in `[0.1, 0.9)` and every
entropy function whose value `h` at `(1/2, 1/2)` is a binary32 number with
`h / 2` a binary32 number. -/
theorem no_useful_split :
    (∀ (log : ℚ → ℚ) (draws : Nat → ℚ) (sf : SplitFinder) (a b : ℚ),
      a < b →
      (∀ e ∈ sf.entries_, e.feature_val = a ∨ e.feature_val = b) →
      (∃ e ∈ sf.entries_, e.feature_val = a) → (∃ e ∈ sf.entries_, e.feature_val = b) →
      (∀ e ∈ sf.entries_, e.weight = 1) →
      Normalize (label_distribution sf.num_labels_
          (sf.entries_.filter (fun e => e.feature_val = a))) =
        Normalize (label_distribution sf.num_labels_ sf.entries_) →
      Normalize (label_distribution sf.num_labels_
          (sf.entries_.filter (fun e => e.feature_val = b))) =
        Normalize (label_distribution sf.num_labels_ sf.entries_) →
      a ≤ draws 1 ∧ draws 1 < b →
      FindSplitValue_candidates log draws sf = [(draws 1, 0)]) ∧
    (∀ (entropy : List ℚ → ℚ) (draws : Nat → ℚ),
      1 / 10 ≤ draws 1 ∧ draws 1 < 9 / 10 →
      float_round (entropy [1 / 2, 1 / 2]) = entropy [1 / 2, 1 / 2] →
      float_round (1 / 2 * entropy [1 / 2, 1 / 2]) = 1 / 2 * entropy [1 / 2, 1 / 2] →
      FindSplitValue_candidates_float entropy draws example_balanced =
        [(draws 1, some 0)]) :=
  ⟨no_useful_split_exact, no_useful_split_float_balanced⟩

/-- Witness for C9: the scenario of the spec with the draw `0.3`, in exact
arithmetic with the function `x - 1` for the logarithm, and in binary32 with
`example_entropy`, whose value at `(1/2, 1/2)` is 1. -/
theorem no_useful_split_witness :
    FindSplitValue_candidates (fun x => x - 1) (fun _ => 3 / 10) example_balanced =
        [(3 / 10, 0)] ∧
      FindSplitValue_candidates_float example_entropy (fun _ => 3 / 10) example_balanced =
        [(3 / 10, some 0)] :=
  ⟨no_useful_split.1 (fun x => x - 1) (fun _ => 3 / 10) example_balanced (1 / 10) (9 / 10)
      (by norm_num)
      (by simp [example_balanced])
      (by simp [example_balanced])
      (by simp [example_balanced])
      (by simp [example_balanced])
      (by norm_num [example_balanced, label_distribution, vec_add, Normalize, List.replicate])
      (by norm_num [example_balanced, label_distribution, vec_add, Normalize, List.replicate])
      (by norm_num),
    no_useful_split.2 example_entropy (fun _ => 3 / 10) (by norm_num)
      (by
        have h1 : float_round 1 = 1 := by
          exact_mod_cast float_round_int 1 (by decide) (by decide)
        norm_num [example_entropy, h1])
      (by
        have hhalf : float_round (1 / 2) = 1 / 2 := by
          rw [float_round_near (1 / 2) (-1) 8388608 (by norm_num) (by norm_num)
            (by norm_num) (by norm_num) (by norm_num)]
          norm_num
        have e : example_entropy [1 / 2, 1 / 2] = 1 := by norm_num [example_entropy]
        rw [e, mul_one, hhalf])⟩

end RandForest
